import Mathlib

/-!
# Verification development for the grana task runner core

Shallow embedding of the core subsystems of the grana declarative task
runner (src/grana): the per-action state machine (actions/base.py), the
emission scanner (actions/base.py, EmissionScannerActionBase), the
execution strategies (strategy.py), the workflow graph construction
(workflow.py) and the template renderer (rendering/).

Python data is modelled as follows: dictionaries that preserve insertion
order become association lists, sets become duplicate-free lists used
up to membership, asyncio futures become an explicit three-valued state,
and exceptions become explicit error values threaded through results.
-/

set_option maxHeartbeats 1000000

namespace Grana

instance {α β : Type} [DecidableEq α] [DecidableEq β] :
    DecidableEq (Except α β) := fun x y =>
  match x, y with
  | .ok a, .ok b =>
    if h : a = b then .isTrue (by rw [h]) else .isFalse (by simp [h])
  | .error a, .error b =>
    if h : a = b then .isTrue (by rw [h]) else .isFalse (by simp [h])
  | .ok _, .error _ => .isFalse (by simp)
  | .error _, .ok _ => .isFalse (by simp)

/-- Split a character list at every occurrence of the separator
(str.split with an explicit separator; empty fragments kept). -/
def splitOnChar (sep : Char) : List Char → List (List Char)
  | [] => [[]]
  | c :: rest =>
    let r := splitOnChar sep rest
    if c = sep then [] :: r
    else
      match r with
      | [] => [[c]]
      | seg :: segs => (c :: seg) :: segs

/-- Whether the list ends with the given suffix. -/
def listEndsWith (l suffix : List Char) : Bool :=
  suffix.reverse.isPrefixOf l.reverse

/-- str.strip() restricted to the space character (the only whitespace
appearing in the modelled inputs). -/
def trimChars (l : List Char) : List Char :=
  ((l.dropWhile (fun c => c = ' ')).reverse.dropWhile (fun c => c = ' ')).reverse

/-- Action statuses, from actions/base.py ActionStatus. -/
inductive ActionStatus
  | PENDING
  | RUNNING
  | SUCCESS
  | WARNING
  | FAILURE
  | SKIPPED
  | OMITTED
deriving DecidableEq, Repr

/-- Action severities, from actions/base.py ActionSeverity. -/
inductive ActionSeverity
  | LOW
  | NORMAL
deriving DecidableEq, Repr

/-- A status is terminal when the action has finished for good
(every status except PENDING and RUNNING). -/
def ActionStatus.isTerminal : ActionStatus → Bool
  | .PENDING => false
  | .RUNNING => false
  | _ => true

/-- Exception values that the action runtime stores in the completion
future or lets escape from a call. `invalidState` models
asyncio.InvalidStateError raised by Future.set_result on a future that
is already done. -/
inductive Exc
  | actionRunError (msg : String)
  | actionSkip
  | invalidState
  | otherError (txt : String)
deriving DecidableEq, Repr

/-- The completion future of an action (ActionBase._maybe_finish_flag):
either not resolved yet, resolved with None, or resolved with a stored
exception. -/
inductive FutureVal
  | unset
  | result
  | exception (e : Exc)
deriving DecidableEq, Repr

/-- Future.done(). An unset future (not yet created or not resolved)
counts as not done, matching get_future() which creates a pending
future on first access. -/
def FutureVal.isDone : FutureVal → Bool
  | .unset => false
  | _ => true

/-- Events placed on the action event queue: plain stdout-style messages
or stderr-flagged messages (types.Stderr is a str subclass; here the
flag is made explicit). -/
inductive Event
  | out (s : String)
  | err (s : String)
deriving DecidableEq, Repr

/-- Mutable state of a single ActionBase object: the fields of
actions/base.py ActionBase that the runtime reads or writes. The event
queue is the list of messages emitted so far. -/
structure ActionState where
  name : String
  severity : ActionSeverity
  status : ActionStatus
  future : FutureVal
  enabled : Bool
  outcomes : List (String × String)
  events : List Event
deriving DecidableEq, Repr

/-- A freshly constructed action (ActionBase.__init__): PENDING,
enabled, no future, no outcomes, empty queue. -/
def initAction (name : String) (sev : ActionSeverity) : ActionState :=
  { name := name, severity := sev, status := .PENDING, future := .unset,
    enabled := true, outcomes := [], events := [] }

/-- ActionBase.done(): the future is done or the status is SKIPPED or
OMITTED. -/
def ActionState.done (s : ActionState) : Bool :=
  s.future.isDone || s.status == .SKIPPED || s.status == .OMITTED

/-- ActionBase._internal_skip: set the status to SKIPPED, then resolve
the future with None. If the future is already done, set_result raises
InvalidStateError -- note that the status has been overwritten first. -/
def internalSkip (s : ActionState) : ActionState × Option Exc :=
  let s1 := { s with status := .SKIPPED }
  if s.future.isDone then (s1, some .invalidState)
  else ({ s1 with future := .result }, none)

/-- ActionBase._internal_omit: same shape as _internal_skip with
OMITTED. -/
def internalOmit (s : ActionState) : ActionState × Option Exc :=
  let s1 := { s with status := .OMITTED }
  if s.future.isDone then (s1, some .invalidState)
  else ({ s1 with future := .result }, none)

/-- ActionBase._internal_fail: when the future is not yet done, record
the exception and move to FAILURE (normal severity) or WARNING (low
severity); otherwise do nothing. -/
def internalFail (e : Exc) (s : ActionState) : ActionState :=
  if s.future.isDone then s
  else { s with
    status := if s.severity = .NORMAL then .FAILURE else .WARNING,
    future := .exception e }

/-- ActionBase.skip(): run _internal_skip, then raise ActionSkip. The
call always raises: ActionSkip normally, or the InvalidStateError that
escaped set_result first. -/
def ActionState.skipCall (s : ActionState) : ActionState × Exc :=
  match internalSkip s with
  | (s1, some e) => (s1, e)
  | (s1, none) => (s1, .actionSkip)

/-- BaseStrategy._skip_action: call action.skip() and swallow only
ActionSkip. Any other escaping exception propagates to the caller. -/
def skipAction (s : ActionState) : ActionState × Option Exc :=
  let r := s.skipCall
  if r.snd = .actionSkip then (r.fst, none) else (r.fst, some r.snd)

/-- Possible behaviors of a subclass run() body, as classified by the
exception handling of ActionBase._await: return None, call self.skip(),
call self.fail(msg), or raise any other exception. -/
inductive BodyOutcome
  | ret
  | callsSkip
  | callsFail (msg : String)
  | raisesOther (txt : String)
deriving DecidableEq, Repr

/-- The task-allocation fragment of ActionBase._await: the running task
is created and the status becomes RUNNING. -/
def startRun (s : ActionState) : ActionState :=
  { s with status := .RUNNING }

/-- Completion fragment of ActionBase._await for a body that returned:
status becomes SUCCESS and the future is resolved if still pending. -/
def bodyFinishOk (s : ActionState) : ActionState :=
  let s1 := { s with status := .SUCCESS }
  if s1.future.isDone then s1 else { s1 with future := .result }

/-- ActionBase.emit (base class): enqueue the message as is. -/
def baseEmit (s : ActionState) (ev : Event) : ActionState :=
  { s with events := s.events ++ [ev] }

/-- ActionBase.yield_outcome: record the key in the outcome map
(overwriting an existing binding, like a dict assignment). -/
def yieldOutcome (k v : String) (s : ActionState) : ActionState :=
  { s with outcomes := (s.outcomes.filter (fun p => p.fst ≠ k)) ++ [(k, v)] }

/-- Result of awaiting an action whose future is resolved
(ActionBase._await first branch, returning fut.result()): None for a
resolved future, the stored exception otherwise; `none` when the future
is not done yet and awaiting would block. -/
def futResult : FutureVal → Option (Except Exc Unit)
  | .unset => none
  | .result => some (.ok ())
  | .exception e => some (.error e)

/-- One observable state change of a single action, each constructor
being one call path of the source:
* `disable`  -- ActionBase.disable, guarded by the PENDING check in the
  method itself;
* `omit`     -- Runner._run_action on a disabled action (the action was
  never started, hence PENDING);
* `renderFail` -- Runner._run_action calling _internal_fail when
  rendering or argument validation raised (before the action starts);
* `start`    -- ActionBase._await allocating the body task;
* `bodyOk`, `bodySkip`, `bodyFail`, `bodyOther` -- the body task
  finishing, classified as in _await (fail() and uncaught exceptions go
  through _internal_fail, self.skip() through _internal_skip);
* `outcome`  -- ActionBase.yield_outcome from the running body;
* `sayEvent` -- ActionBase.emit from the running body;
* `stratSkip` -- BaseStrategy._skip_action, which strategies apply only
  to actions they have never emitted (hence PENDING). -/
inductive AStep : ActionState → ActionState → Prop
  | disable (s : ActionState) : s.status = .PENDING →
      AStep s { s with enabled := false }
  | omitted (s : ActionState) : s.status = .PENDING → s.enabled = false →
      AStep s (internalOmit s).fst
  | renderFail (s : ActionState) (e : Exc) : s.status = .PENDING →
      AStep s (internalFail e s)
  | start (s : ActionState) : s.status = .PENDING →
      AStep s (startRun s)
  | bodyOk (s : ActionState) : s.status = .RUNNING →
      AStep s (bodyFinishOk s)
  | bodySkip (s : ActionState) : s.status = .RUNNING →
      AStep s (internalSkip s).fst
  | bodyFail (s : ActionState) (msg : String) : s.status = .RUNNING →
      AStep s (internalFail (.actionRunError msg) s)
  | bodyOther (s : ActionState) (txt : String) : s.status = .RUNNING →
      AStep s (internalFail (.otherError txt) s)
  | outcome (s : ActionState) (k v : String) : s.status = .RUNNING →
      AStep s (yieldOutcome k v s)
  | sayEvent (s : ActionState) (ev : Event) : s.status = .RUNNING →
      AStep s (baseEmit s ev)
  | stratSkip (s : ActionState) : s.status = .PENDING →
      AStep s (skipAction s).fst

/-- States of a single action reachable from construction. -/
def AReachable (s : ActionState) : Prop :=
  ∃ n sev, Relation.ReflTransGen AStep (initAction n sev) s

/-- The transition diagram exactly as the spec (section 3) draws it:
from PENDING to RUNNING, SKIPPED or OMITTED; from RUNNING to SUCCESS,
FAILURE (normal severity) or WARNING (low severity); terminal statuses
never change. Unchanged status is not a change. -/
def specDiagramAllows (sev : ActionSeverity) : ActionStatus → ActionStatus → Bool
  | a, b =>
    if a = b then true
    else
      match a, b with
      | .PENDING, .RUNNING => true
      | .PENDING, .SKIPPED => true
      | .PENDING, .OMITTED => true
      | .RUNNING, .SUCCESS => true
      | .RUNNING, .FAILURE => sev = .NORMAL
      | .RUNNING, .WARNING => sev = .LOW
      | _, _ => false

/-- The transition diagram the code actually implements: additionally,
a render/validation failure moves a PENDING action directly to FAILURE
(or WARNING at low severity) through Runner._run_action, and a body
calling self.skip() moves a RUNNING action to SKIPPED. -/
def codeDiagramAllows (sev : ActionSeverity) : ActionStatus → ActionStatus → Bool
  | a, b =>
    if a = b then true
    else
      match a, b with
      | .PENDING, .RUNNING => true
      | .PENDING, .SKIPPED => true
      | .PENDING, .OMITTED => true
      | .PENDING, .FAILURE => sev = .NORMAL
      | .PENDING, .WARNING => sev = .LOW
      | .RUNNING, .SUCCESS => true
      | .RUNNING, .SKIPPED => true
      | .RUNNING, .FAILURE => sev = .NORMAL
      | .RUNNING, .WARNING => sev = .LOW
      | _, _ => false

/-! ## Emission scanner (actions/base.py, EmissionScannerActionBase) -/

/-- Value of a base64 alphabet character (RFC 4648), none for anything
outside the alphabet. -/
def b64Val (c : Char) : Option Nat :=
  if 'A' ≤ c ∧ c ≤ 'Z' then some (c.toNat - 'A'.toNat)
  else if 'a' ≤ c ∧ c ≤ 'z' then some (c.toNat - 'a'.toNat + 26)
  else if '0' ≤ c ∧ c ≤ '9' then some (c.toNat - '0'.toNat + 52)
  else if c = '+' then some 62
  else if c = '/' then some 63
  else none

/-- Decode one base64 quantum of four characters (the last two possibly
padding) into one to three bytes. -/
def b64Quantum : List Char → Option (List Nat)
  | [a, b, c, d] => do
    let va ← b64Val a
    let vb ← b64Val b
    if c = '=' then
      if d = '=' then pure [va * 4 + vb / 16] else none
    else do
      let vc ← b64Val c
      if d = '=' then pure [va * 4 + vb / 16, (vb % 16) * 16 + vc / 4]
      else do
        let vd ← b64Val d
        pure [va * 4 + vb / 16, (vb % 16) * 16 + vc / 4, (vc % 4) * 64 + vd]
  | _ => none

/-- base64.b64decode with validate=True: the input length must be a
multiple of four, every character must be from the alphabet (padding
only at the end), and the result is the byte string. Bytes are then
decoded as characters (the .decode() call; claims use ASCII data). -/
def b64decode (s : String) : Option String :=
  go s.toList []
where
  go : List Char → List Nat → Option String
    | [], acc => some (String.mk (acc.map Char.ofNat))
    | a :: b :: c :: d :: rest, acc =>
      match b64Quantum [a, b, c, d] with
      | some bytes =>
        if rest ≠ [] ∧ (c = '=' ∨ d = '=') then none
        else go rest (acc ++ bytes)
      | none => none
    | _, _ => none

/-- str.split() with no arguments: split on whitespace runs, dropping
empty fragments (space is the only whitespace in the modelled
inputs). -/
def pySplit (s : String) : List String :=
  ((splitOnChar ' ' s.toList).filter (fun t => ¬ t.isEmpty)).map String.mk

/-- str.splitlines() for newline-separated data: split on the newline
character, without a trailing empty fragment. -/
def pySplitLines (s : String) : List String :=
  if s.toList.isEmpty then []
  else
    let parts := splitOnChar '\n' s.toList
    (if parts.getLast? = some [] then parts.dropLast else parts).map String.mk

/-- Characters admitted inside the service-message brackets by
_SERVICE_MESSAGES_SCAN_PATTERN: letters, digits, +, /, =, - and
space. -/
def serviceChar (c : Char) : Bool :=
  ('A' ≤ c ∧ c ≤ 'Z') || ('a' ≤ c ∧ c ≤ 'z') || ('0' ≤ c ∧ c ≤ '9') ||
    c = '+' || c = '/' || c = '=' || c = '-' || c = ' '

/-- Match one line against the anchored pattern
pre ++ "##grana[" ++ body ++ "]##" where body is a non-empty run of
service characters and the suffix sits at end of line. The non-greedy
leading group makes the match use the earliest prefix split that
works; `go` scans candidate split points left to right. -/
def matchServiceLine (line : String) : Option (String × String) :=
  go [] line.toList
where
  markerBody (cs : List Char) : Option (List Char) :=
    -- cs should be "##grana[" ++ body ++ "]##" with body admissible
    match cs with
    | '#' :: '#' :: 'g' :: 'r' :: 'a' :: 'n' :: 'a' :: '[' :: rest =>
      let body := rest.dropLast.dropLast.dropLast
      let tail := rest.drop body.length
      if body ≠ [] ∧ body.all serviceChar ∧ tail = [']', '#', '#'] then
        some body
      else none
    | _ => none
  go (pre : List Char) (rest : List Char) : Option (String × String) :=
    match markerBody rest with
    | some body => some (String.mk pre.reverse, String.mk body)
    | none =>
      match rest with
      | [] => none
      | c :: rest1 => go (c :: pre) rest1

/-- EmissionScannerActionBase._process_service_message_expression: split
the expression, decode every base64 argument, then dispatch on the
verb. A skip verb triggers self.skip(), whose ActionSkip escapes (and
is re-raised by the except clause); every other exception of the body,
including base64 errors, unknown verbs and bad argument counts, is
logged and swallowed. -/
def processServiceMessage (expr : String) (s : ActionState) :
    ActionState × Option Exc :=
  match pySplit expr with
  | [] => (s, none)
  | verb :: args =>
    match args.mapM b64decode with
    | none => (s, none)
    | some decoded =>
      if verb = "skip" then
        let r := s.skipCall
        if r.snd = .actionSkip then (r.fst, some .actionSkip)
        else (r.fst, none)
      else if verb = "yield-outcome-b64" then
        match decoded with
        | [k, v] => (yieldOutcome k v s, none)
        | _ => (s, none)
      else (s, none)

/-- One iteration layer of EmissionScannerActionBase.emit over the
lines of a non-stderr message. `carry` is the memorized prefix variable.
An escaping ActionSkip aborts the remaining lines. -/
def scanLines (s : ActionState) (carry : String) :
    List String → ActionState × Option Exc
  | [] => (if carry ≠ "" then baseEmit s (.out carry) else s, none)
  | line :: rest =>
    if ¬ listEndsWith line.toList [']', '#', '#'] then
      scanLines (baseEmit s (.out (carry ++ line))) "" rest
    else
      match matchServiceLine line with
      | none => scanLines (baseEmit s (.out (carry ++ line))) "" rest
      | some (pre, expr) =>
        match processServiceMessage expr s with
        | (s1, some e) => (s1, some e)
        | (s1, none) => scanLines s1 (carry ++ pre) rest

/-- EmissionScannerActionBase.emit: stderr messages bypass scanning and
are enqueued verbatim; other messages are scanned line by line for
service markers. -/
def scannerEmit (s : ActionState) (ev : Event) : ActionState × Option Exc :=
  match ev with
  | .err txt => (baseEmit s (.err txt), none)
  | .out txt => scanLines s "" (pySplitLines txt)

/-! ## Execution strategies (strategy.py) -/

/-- Association list lookup, modelling a Python dict read. -/
def alookup {α : Type} (m : List (String × α)) (k : String) : Option α :=
  match m.find? (fun p => p.fst = k) with
  | some p => some p.snd
  | none => none

/-- Association list write, modelling a Python dict assignment
(insertion order preserved, existing key overwritten in place). -/
def aset {α : Type} (m : List (String × α)) (k : String) (v : α) :
    List (String × α) :=
  if (m.find? (fun p => p.fst = k)).isSome then
    m.map (fun p => if p.fst = k then (k, v) else p)
  else m ++ [(k, v)]

/-- A workflow as the loose strategy sees it: insertion-ordered actions
with their (already pruned) ancestor dependency maps; the Bool is the
dependency's strict flag. -/
def StratWorkflow : Type := List (String × List (String × Bool))

/-- Ancestor names of an action in the workflow (keys of
action.ancestors). -/
def ancestorNames (wf : StratWorkflow) (n : String) : List String :=
  match alookup wf n with
  | some deps => deps.map Prod.fst
  | none => []

/-- LooseStrategy._get_maybe_next_action: scan the mutable blockers map
in insertion order; every scanned entry has the currently done names
subtracted from its blocker set; the first entry whose set becomes
empty is popped and returned together with the updated map. When no
entry qualifies, the whole map keeps the subtractions. -/
def getMaybeNextAction (done : List String) :
    List (String × List String) →
      Option (String × List (String × List String)) × List (String × List String)
  | [] => (none, [])
  | (n, bs) :: rest =>
    let bs1 := bs.filter (fun x => ¬ x ∈ done)
    if bs1.isEmpty then (some (n, rest), rest)
    else
      match getMaybeNextAction done rest with
      | (some (m, rest1), _) => (some (m, (n, bs1) :: rest1), (n, bs1) :: rest1)
      | (none, rest1) => (none, (n, bs1) :: rest1)

/-- State of a LooseStrategy together with the statuses of the workflow
actions it observes. `active` is _active_actions_map (names only). -/
structure SysState where
  statuses : List (String × ActionStatus)
  blockers : List (String × List String)
  active : List String
deriving DecidableEq, Repr

/-- LooseStrategy.__init__: every action starts PENDING, the blockers
map is a copy of the ancestor-name sets, nothing is active. -/
def initSys (wf : StratWorkflow) : SysState :=
  { statuses := wf.map (fun p => (p.fst, ActionStatus.PENDING)),
    blockers := wf.map (fun p => (p.fst, p.snd.map Prod.fst)),
    active := [] }

/-- Names of workflow actions that report done(); with the action-state
invariant this is exactly a terminal status. -/
def doneNames (st : SysState) : List String :=
  (st.statuses.filter (fun p => p.snd.isTerminal)).map Prod.fst

/-- The strict-skip test of LooseStrategy.__anext__: some ancestor has
terminal status FAILURE, SKIPPED or WARNING and the dependency is
strict (or the whole strategy is, as in StrictStrategy). -/
def strictCheck (wf : StratWorkflow) (strict : Bool)
    (statuses : List (String × ActionStatus)) (a : String) : Bool :=
  match alookup wf a with
  | none => false
  | some deps =>
    deps.any (fun d =>
      (match alookup statuses d.fst with
       | some .FAILURE => true
       | some .SKIPPED => true
       | some .WARNING => true
       | _ => false) && (d.snd || strict))

/-- Transitions of the loose/strict strategy system. `complete` is an
action finishing concurrently (its status becoming terminal while done
statuses never change, per the action state machine); `emit` is
__anext__ returning an action to the orchestrator; `skipEmit` is
__anext__ finding the strict-skip condition and skipping the candidate
instead; `prune` is the _next_action wait loop dropping a done action
from the active map. -/
inductive SysStep (wf : StratWorkflow) (strict : Bool) :
    SysState → SysState → Prop
  | complete (st : SysState) (n : String) (old new : ActionStatus) :
      alookup st.statuses n = some old → old.isTerminal = false →
      new.isTerminal = true →
      SysStep wf strict st { st with statuses := aset st.statuses n new }
  | emit (st : SysState) (a : String) (bl : List (String × List String)) :
      (getMaybeNextAction (doneNames st) st.blockers).fst = some (a, bl) →
      strictCheck wf strict st.statuses a = false →
      SysStep wf strict st { st with blockers := bl, active := st.active ++ [a] }
  | skipEmit (st : SysState) (a : String) (bl : List (String × List String)) :
      (getMaybeNextAction (doneNames st) st.blockers).fst = some (a, bl) →
      strictCheck wf strict st.statuses a = true →
      SysStep wf strict st
        { statuses := aset st.statuses a .SKIPPED, blockers := bl,
          active := st.active.filter (fun x => x ≠ a) }
  | prune (st : SysState) (n : String) :
      n ∈ st.active → n ∈ doneNames st →
      SysStep wf strict st { st with active := st.active.filter (fun x => x ≠ n) }
  | scanNone (st : SysState) :
      (getMaybeNextAction (doneNames st) st.blockers).fst = none →
      SysStep wf strict st
        { st with blockers := (getMaybeNextAction (doneNames st) st.blockers).snd }

/-- Strategy states reachable from a freshly constructed strategy. -/
def SysReachable (wf : StratWorkflow) (strict : Bool) (st : SysState) : Prop :=
  Relation.ReflTransGen (SysStep wf strict) (initSys wf) st

/-! ## Executable run of a workflow under the loose strategy
(Runner._run_all_actions driving LooseStrategy, runner.py). The
simulator runs each emitted action's runner task to completion before
the strategy's next __anext__ call; for workflows whose dependencies
serialize execution this is exactly the schedule the event loop
produces. -/

/-- A workflow prepared for execution: per action its (pruned) ancestor
dependency map (name, strict flag) and the behavior of its run()
body. -/
def ExecWorkflow : Type := List (String × (List (String × Bool) × BodyOutcome))

/-- The dependency view a LooseStrategy is constructed over. -/
def execDeps (wf : ExecWorkflow) : StratWorkflow :=
  wf.map (fun p => (p.fst, p.snd.fst))

/-- Joint state of the orchestrator and the strategy. -/
structure SimState where
  acts : List (String × ActionState)
  blockers : List (String × List String)
  active : List String
  failed : Bool
deriving DecidableEq, Repr

/-- Fresh runner plus strategy over a workflow of normal-severity
actions. -/
def simInit (wf : ExecWorkflow) : SimState :=
  { acts := wf.map (fun p => (p.fst, initAction p.fst .NORMAL)),
    blockers := wf.map (fun p => (p.fst, p.snd.fst.map Prod.fst)),
    active := [],
    failed := false }

/-- Names of the actions currently reporting done(). -/
def simDone (st : SimState) : List String :=
  (st.acts.filter (fun p => p.snd.done)).map Prod.fst

/-- Statuses of all actions. -/
def simStatuses (st : SimState) : List (String × ActionStatus) :=
  st.acts.map (fun p => (p.fst, p.snd.status))

/-- Runner._run_action for an emitted, enabled action whose rendering
succeeds: _await starts the body and classifies its outcome; an
escaping exception flags the run as failed unless the action ended in
WARNING. -/
def runEmitted (body : BodyOutcome) (s : ActionState) :
    ActionState × Option Exc :=
  let r := startRun s
  match body with
  | .ret => (bodyFinishOk r, none)
  | .callsSkip => ((internalSkip r).fst, none)
  | .callsFail msg =>
    (internalFail (.actionRunError msg) r, some (.actionRunError msg))
  | .raisesOther txt =>
    (internalFail (.otherError txt) r, some (.otherError txt))

/-- One run of the whole workflow, sequentialized as described above.
The fuel bounds the __anext__ iterations; runSim is called with enough
fuel for the loop to reach the strategy's StopAsyncIteration. -/
def runSim (wf : ExecWorkflow) (strict : Bool) :
    Nat → SimState → SimState
  | 0, st => st
  | fuel + 1, st =>
    let done := simDone st
    match (getMaybeNextAction done st.blockers).fst with
    | some (a, bl) =>
      let st1 : SimState :=
        { st with blockers := bl, active := st.active ++ [a] }
      if strictCheck (execDeps wf) strict (simStatuses st1) a then
        -- __anext__ skips the candidate and loops
        let acts1 := match alookup st1.acts a with
          | some s => aset st1.acts a (skipAction s).fst
          | none => st1.acts
        runSim wf strict fuel
          { st1 with acts := acts1,
                     active := st1.active.filter (fun x => x ≠ a) }
      else
        -- emitted: the orchestrator runs the action to completion
        match alookup st1.acts a, alookup wf a with
        | some s, some entry =>
          if s.enabled then
            let r := runEmitted entry.snd s
            let flag := match r.snd with
              | some _ => st1.failed || r.fst.status ≠ .WARNING
              | none => st1.failed
            runSim wf strict fuel
              { st1 with acts := aset st1.acts a r.fst, failed := flag }
          else
            runSim wf strict fuel
              { st1 with acts := aset st1.acts a (internalOmit s).fst }
        | _, _ => st1
    | none =>
      -- _next_action found nothing: subtractions persist; then the
      -- wait loop prunes done actions from the active map or, with
      -- nothing active, raises StopAsyncIteration ending the run.
      let st1 : SimState :=
        { st with blockers := (getMaybeNextAction done st.blockers).snd }
      if st1.active.isEmpty then st1
      else
        let remaining := st1.active.filter (fun n => ¬ done.contains n)
        if remaining = st1.active then st1
        else runSim wf strict fuel { st1 with active := remaining }

/-- Runner.run_async outcome: final statuses plus whether
ExecutionFailed is raised at the end. -/
def runWorkflow (wf : ExecWorkflow) (strict : Bool) :
    List (String × ActionStatus) × Bool :=
  let st := runSim wf strict (2 * wf.length + 2) (simInit wf)
  (simStatuses st, st.failed)

/-- The strict chain scenario of the spec (section 8, scenario 2): Bar
strictly expects Foo, Baz strictly expects Bar, and the body of Foo
raises. -/
def fooBarBaz : ExecWorkflow :=
  [("Foo", ([], .raisesOther "RuntimeError()")),
   ("Bar", ([("Foo", true)], .ret)),
   ("Baz", ([("Bar", true)], .ret))]

/-! ## Workflow graph construction (workflow.py) -/

/-- actions/base.py ActionDependency. -/
structure ActionDependency where
  strict : Bool
  external : Bool
deriving DecidableEq, Repr

/-- The fields of an ActionBase object as Workflow construction sees
them. `argsRepr` stands for the opaque args payload, which construction
never touches. -/
structure WAction where
  name : String
  argsRepr : String
  ancestors : List (String × ActionDependency)
  description : Option String
  selectable : Bool
  severity : ActionSeverity
  status : ActionStatus
  enabled : Bool
  outcomes : List (String × String)
deriving DecidableEq, Repr

/-- Keys of the workflow dict. -/
def wfKeys (wf : List (String × WAction)) : List String :=
  wf.map Prod.fst

/-- The ancestors that survive pruning: an entry is removed exactly
when its name is absent from the workflow and it is external. -/
def pruneAncestors (keys : List String) (anc : List (String × ActionDependency)) :
    List (String × ActionDependency) :=
  anc.filter (fun p => keys.contains p.fst || ¬ p.snd.external)

/-- Add a descendant registration to the defaultdict(dict) descendants
map: a new dep key is appended, an existing bucket grows at its end. -/
def descAdd (m : List (String × List String)) (dep n : String) :
    List (String × List String) :=
  match alookup m dep with
  | some l => aset m dep (l ++ [n])
  | none => m ++ [(dep, [n])]

/-- The inner loop of Workflow._establish_descendants over one
action's ancestor entries (iterated over a snapshot, popping from the
live dict): returns the remaining ancestors, the missing non-external
names encountered, and the descendant registrations (dep, action name)
in iteration order. -/
def processAncestors (keys : List String) (aname : String)
    (anc : List (String × ActionDependency)) :
    List (String × ActionDependency) × List String × List (String × String) :=
  anc.foldl
    (fun acc p =>
      if ¬ keys.contains p.fst then
        if p.snd.external then acc
        else (acc.1 ++ [p], acc.2.1 ++ [p.fst], acc.2.2)
      else (acc.1 ++ [p], acc.2.1, acc.2.2 ++ [(p.fst, aname)]))
    ([], [], [])

/-- Result of Workflow._establish_descendants: the mutated actions, the
entrypoint names, the descendants map and the missing non-external
dependency names (the integrity checks on the latter two come
afterwards). -/
structure EstablishOut where
  actions : List (String × WAction)
  entry : List String
  desc : List (String × List String)
  missing : List String
deriving DecidableEq, Repr

/-- One iteration of the Workflow._establish_descendants action loop. -/
def establishStep (keys : List String) (out : EstablishOut)
    (p : String × WAction) : EstablishOut :=
  let r := processAncestors keys p.snd.name p.snd.ancestors
  { actions := out.actions ++ [(p.fst, { p.snd with ancestors := r.1 })],
    entry := if r.1.isEmpty then out.entry ++ [p.snd.name] else out.entry,
    desc := r.2.2.foldl (fun m q => descAdd m q.fst q.snd) out.desc,
    missing := out.missing ++ r.2.1 }

/-- Workflow._establish_descendants. -/
def establishDescendants (wf : List (String × WAction)) : EstablishOut :=
  wf.foldl (establishStep (wfKeys wf)) ⟨[], [], [], []⟩

/-- Descendant names of an action (missing key gives the empty
bucket, as with defaultdict). -/
def descOf (desc : List (String × List String)) (n : String) : List String :=
  (alookup desc n).getD []

/-- The while loop of Workflow._allocate_tiers (BFS over the
descendants map): every not-yet-assigned member of the current set gets
the current tier, the next set is the union of the new members'
descendants, and the loop stops when that union is empty. The fuel
argument bounds the iterations; construct passes enough fuel (see
bfsAux_total). -/
def bfsAux (desc : List (String × List String)) :
    Nat → Nat → List (String × Nat) → List String → Option (List (String × Nat))
  | 0, _, _, _ => none
  | fuel + 1, tier, mapping, current =>
    let newNames := current.filter (fun n => ¬ (mapping.map Prod.fst).contains n)
    let mapping1 := mapping ++ newNames.map (fun n => (n, tier))
    let next := (newNames.flatMap (fun n => descOf desc n)).dedup
    if next.isEmpty then some mapping1
    else bfsAux desc fuel (tier + 1) mapping1 next

/-- All names the BFS can ever visit: entrypoints plus every name
mentioned in a descendants bucket. -/
def bfsUniverse (entry : List String) (desc : List (String × List String)) :
    List String :=
  entry ++ desc.flatMap Prod.snd

/-- A fully constructed Workflow object. -/
structure ConstructedWorkflow where
  actions : List (String × WAction)
  entry : List String
  desc : List (String × List String)
  tiers : List (String × Nat)
deriving DecidableEq, Repr

/-- Workflow.__init__: establish descendants (raising IntegrityError on
a missing non-external dependency or on an empty entrypoint set), then
allocate tiers (raising IntegrityError when some action was never
visited). The fuel handed to the BFS is provably sufficient, so the
fuel branch is dead code (bfsAux_total). -/
def construct (wf : List (String × WAction)) : Except String ConstructedWorkflow :=
  let e := establishDescendants wf
  if ¬ e.missing.isEmpty then .error "Missing actions among dependencies"
  else if e.entry.isEmpty then .error "No entrypoints for the workflow"
  else
    match bfsAux e.desc ((bfsUniverse e.entry e.desc).length + 1) 0 [] e.entry with
    | none => .error "bfs fuel exhausted"
    | some mapping =>
      if (e.actions.filter
            (fun p => ¬ (mapping.map Prod.fst).contains p.snd.name)).isEmpty then
        .ok ⟨e.actions, e.entry, e.desc, mapping⟩
      else .error "Unreachable actions found"

/-- Names reachable by a path of exactly k descendant edges from some
entrypoint (k-fold image of the entrypoint set). -/
def reachSet (desc : List (String × List String)) (entry : List String) :
    Nat → List String
  | 0 => entry
  | k + 1 => ((reachSet desc entry k).flatMap (fun n => descOf desc n)).dedup

/-- A path of length k along descendant edges, ending-edge first.
EdgePath desc a b k holds when b is reachable from a via exactly k
edges of the descendants map. -/
inductive EdgePath (desc : List (String × List String)) :
    String → String → Nat → Prop
  | refl (a : String) : EdgePath desc a a 0
  | snoc (a b c : String) (k : Nat) : EdgePath desc a b k →
      c ∈ descOf desc b → EdgePath desc a c (k + 1)

/-- n has a shortest entrypoint path of length exactly k. -/
def HasDist (desc : List (String × List String)) (entry : List String)
    (n : String) (k : Nat) : Prop :=
  n ∈ reachSet desc entry k ∧ ∀ j < k, n ∉ reachSet desc entry j

/-! ## Template renderer (rendering/__init__.py, rendering/tokenizing.py)

The Python tokenize-based expression scanner is modelled at character
level: brace depth counting over the raw characters of the expression,
which coincides with the token-level count for expressions free of
string literals containing braces (all claims are in this fragment).
The untokenize-reconstructed expression text is modelled by the raw
source slice; the expression evaluator is whitespace-insensitive like
the host eval. -/

/-- qualify_string_as_potentially_renderable (actions/types.py): the
data contains the two-character marker. -/
def qualifies : List Char → Bool
  | a :: b :: rest => (a = '@' && b = '{') || qualifies (b :: rest)
  | _ => false

/-- Python slice data[a:b]. -/
def pySlice (data : List Char) (a b : Nat) : List Char :=
  (data.take b).drop a

/-- TemplarStringLexer._read_expression: scan for the brace that closes
the expression, tracking nested brace depth; return the index of the
closing brace within the scanned slice together with the collected
expression text. None models the tokenizer stream ending before the
closing brace is found (StopIteration out of get_token). -/
def readExprGo : List Char → Nat → List Char → Nat → Option (Nat × List Char)
  | [], _, _, _ => none
  | c :: rest, depth, acc, pos =>
    if c = '}' then
      if depth = 0 then some (pos, acc)
      else readExprGo rest (depth - 1) (acc ++ [c]) (pos + 1)
    else if c = '{' then readExprGo rest (depth + 1) (acc ++ [c]) (pos + 1)
    else readExprGo rest depth (acc ++ [c]) (pos + 1)

/-- Wrapper of readExprGo starting at depth zero. -/
def readExpr (cs : List Char) : Option (Nat × List Char) :=
  readExprGo cs 0 [] 0

/-- Lexemes of TemplarStringLexer: raw text to keep, or an expression
to evaluate. -/
inductive Lexeme
  | text (s : List Char)
  | expr (s : List Char)
deriving DecidableEq, Repr

/-- TemplarStringLexer.__iter__: scan the data character by character;
an @ toggles the armed flag (so @@ disarms), an armed brace starts an
expression. The first list argument is the unscanned suffix
data.drop caret, carried explicitly so the recursion is structural.
The caret resumes right after the opening brace even on a successful
expression read, with textStart jumped past the closing brace; on an
exhausted expression read the handler emits data[textStart:], where
textStart still marks the start of the last text chunk -- which was
already emitted. -/
def lexGo (data : List Char) : List Char → Nat → Nat → Bool → List Lexeme
  | [], _, textStart, _ =>
    let tail := data.drop textStart
    if tail.isEmpty then [] else [.text tail]
  | c :: rest, caret, textStart, armed =>
    if c = '@' then lexGo data rest (caret + 1) textStart (!armed)
    else if c = '{' ∧ armed then
      let pre := pySlice data textStart (caret - 1)
      match readExpr rest with
      | some r =>
        (if pre.isEmpty then [] else [.text pre]) ++ [.expr r.snd] ++
          lexGo data rest (caret + 1) (caret + r.fst + 2) false
      | none =>
        let tail := data.drop textStart
        (if pre.isEmpty then [] else [.text pre]) ++
          (if tail.isEmpty then [] else [.text tail])
    else lexGo data rest (caret + 1) textStart false

/-- Lexing of a string. -/
def lexString (s : String) : List Lexeme :=
  lexGo s.toList s.toList 0 0 false

/-- A loaded context value (Templar._load_ctx_node on a string): a
string containing the expression marker becomes a deferred template
proxy (LazyProxy over _internal_render), anything else stays plain. -/
inductive CtxNode
  | plain (s : String)
  | lazy (template : String)
deriving DecidableEq, Repr

/-- Templar._load_ctx_node for a string leaf. -/
def loadCtxStr (s : String) : CtxNode :=
  if qualifies s.toList then .lazy s else .plain s

/-- Render error kinds (exceptions.py ActionRenderError and its
subcauses, distinguished by their message as in the source). -/
inductive RenderErr
  | recursionDepth
  | contextKeyNotFound (k : String)
  | nameError (n : String)
  | unmodelled (txt : String)
deriving DecidableEq, Repr

/-- The local names bound by Templar.__init__ for host evaluation. -/
def templarLocals : List String :=
  ["outcomes", "status", "context", "environment", "out", "ctx", "env"]

/-- Components of an attribute-chain expression. -/
def evalParse (e : String) : List String :=
  ((splitOnChar '.' e.toList).map trimChars).map String.mk

/-- Host evaluation (Templar._eval) of the attribute-chain expressions
the claims exercise: a bare name resolves against the locals dict or
raises NameError; context attribute access goes through
ContextDict.__getitem__, whose missing key raises the context-key
render error (rendering/containers.py). Containers other than the
context are not needed by any claim and evaluate to a distinguished
unmodelled error. -/
def evalExpr (ctx : List (String × CtxNode)) (e : String) :
    Except RenderErr CtxNode :=
  match evalParse e with
  | [h] =>
    if templarLocals.contains h then .error (.unmodelled e)
    else .error (.nameError h)
  | [h, k] =>
    if h = "context" ∨ h = "ctx" then
      match alookup ctx k with
      | some v => .ok v
      | none => .error (.contextKeyNotFound k)
    else if templarLocals.contains h then .error (.unmodelled e)
    else .error (.nameError h)
  | _ => .error (.unmodelled e)

/-- The lexeme loop of Templar._internal_render: text chunks pass
through, expressions are evaluated and stringified; stringifying a
deferred context proxy calls back into _internal_render through the
`force` callback. -/
def renderList (ctx : List (String × CtxNode))
    (force : String → Except RenderErr String) :
    List Lexeme → Except RenderErr String
  | [] => .ok ""
  | .text s :: rest => do
    let r ← renderList ctx force rest
    .ok (String.mk s ++ r)
  | .expr e :: rest => do
    let v ← evalExpr ctx (String.mk e)
    let sv ← match v with
      | .plain s => Except.ok s
      | .lazy t => force t
    let r ← renderList ctx force rest
    .ok (sv ++ r)

/-- Templar._internal_render at depth d. The depth counter is
incremented on entry and checked against the cap before anything
else; str() on a deferred context proxy re-enters _internal_render at
the increased depth, which is the increment chain that detects context
cycles. The first Nat is a structural budget maintained at cap - d
(render starts it at cap and every re-entry decreases it as d grows),
so the budget-exhausted branch coincides with the cap check: when it
is reached, cap ≤ d holds and the source raises the recursion error
too. -/
def renderTemplate (ctx : List (String × CtxNode)) (cap : Nat) :
    Nat → Nat → String → Except RenderErr String
  | 0, _, _ => .error .recursionDepth
  | k + 1, d, v =>
    if cap ≤ d + 1 then .error .recursionDepth
    else
      if qualifies v.toList then
        renderList ctx (renderTemplate ctx cap k (d + 1)) (lexString v)
      else .ok v

/-- Templar.render: one _internal_render call from depth zero. The
source re-wraps an ActionRenderRecursionError into a plain
ActionRenderError carrying the same message; the error value here
keeps the kind, mirroring the preserved message. -/
def render (ctx : List (String × CtxNode)) (cap : Nat) (value : String) :
    Except RenderErr String :=
  renderTemplate ctx cap cap 0 value

/-! ## Predicates and fixtures used by the theorems -/

/-- Consistency of an action's status and completion future, as
maintained by every source call path: the future is resolved exactly
for terminal statuses, holds an exception exactly for FAILURE/WARNING
and a None result exactly for SUCCESS/SKIPPED/OMITTED. -/
def ActionInv (s : ActionState) : Prop :=
  (s.future.isDone = true ↔ s.status.isTerminal = true) ∧
  (∀ e, s.future = .exception e → s.status = .FAILURE ∨ s.status = .WARNING) ∧
  (s.future = .result →
    s.status = .SUCCESS ∨ s.status = .SKIPPED ∨ s.status = .OMITTED)

/-- A scanner-based action while its body is producing output. -/
def runningScanner : ActionState :=
  { initAction "scan" .NORMAL with status := .RUNNING }

/-- The context of the claim's own cycle example: a: "@\x7bb\x7d",
b: "@\x7ba\x7d". -/
def ctxClaimExample : List (String × CtxNode) :=
  [("a", loadCtxStr "@\x7bb\x7d"), ("b", loadCtxStr "@\x7ba\x7d")]

/-- A context whose values reference each other through the context
container, producing a genuine render-time cycle (the shape the test
suite uses: cycle_1/cycle_2). -/
def ctxCycle : List (String × CtxNode) :=
  [("a", loadCtxStr "@\x7bcontext.b\x7d"), ("b", loadCtxStr "@\x7bcontext.a\x7d")]

/-- Workflow action record with default fields, for construction
fixtures. -/
def mkWAction (n : String) (anc : List (String × ActionDependency)) : WAction :=
  { name := n, argsRepr := "", ancestors := anc, description := none,
    selectable := true, severity := .NORMAL, status := .PENDING,
    enabled := true, outcomes := [] }

/-- Two-action chain A before B for construction fixtures. -/
def wfPair : List (String × WAction) :=
  [("A", mkWAction "A" []),
   ("B", mkWAction "B" [("A", ⟨true, false⟩)])]

/-- Workflow with one missing external dependency, for the pruning
witness. -/
def wfExternal : List (String × WAction) :=
  [("A", mkWAction "A" [("ghost", ⟨false, true⟩)]),
   ("B", mkWAction "B" [("A", ⟨true, false⟩)])]

/-- Dependency view of the two-action chain for the strategy
fixtures. -/
def stratPair : StratWorkflow :=
  [("A", []), ("B", [("A", true)])]

/-- Constructed workflow of the two-action chain. -/
def cwPair : ConstructedWorkflow :=
  ⟨wfPair, ["A"], [("A", ["B"])], [("A", 0), ("B", 1)]⟩

/-- Constructed workflow of the external-dependency fixture: the ghost
ancestor is pruned away. -/
def cwExt : ConstructedWorkflow :=
  ⟨[("A", mkWAction "A" []), ("B", mkWAction "B" [("A", ⟨true, false⟩)])],
   ["A"], [("A", ["B"])], [("A", 0), ("B", 1)]⟩

/-- The two-action chain after the strategy emitted A. -/
def st1P : SysState :=
  { statuses := [("A", .PENDING), ("B", .PENDING)],
    blockers := [("B", ["A"])], active := ["A"] }

/-- The two-action chain after A completed successfully. -/
def st2P : SysState :=
  { statuses := [("A", .SUCCESS), ("B", .PENDING)],
    blockers := [("B", ["A"])], active := ["A"] }

/-- The blocker-map invariant of the loose strategy: for every action
still tracked by the blockers map, every ancestor is either still
recorded as a blocker or already done. -/
def BlockInv (wf : StratWorkflow) (st : SysState) : Prop :=
  ∀ n bs, (n, bs) ∈ st.blockers →
    ∀ anc, anc ∈ ancestorNames wf n → anc ∈ bs ∨ anc ∈ doneNames st

/-! # Theorems -/

/-- C2: for the workflow [Foo, Bar, Baz] with Bar strictly expecting
Foo, Baz strictly expecting Bar and Foo's body raising, a loose-strategy
run terminates with Foo = FAILURE, Bar = SKIPPED, Baz = SKIPPED, and
the run as a whole fails with the execution-failed error. -/
theorem strict_chain_failure :
    runWorkflow fooBarBaz false =
      ([("Foo", .FAILURE), ("Bar", .SKIPPED), ("Baz", .SKIPPED)], true) := by
  decide

/-- C8 counterexample: the strategies' _skip_action helper is not
idempotent as claimed. The first application to a PENDING action
performs the SKIPPED transition and raises nothing, but the second
application raises InvalidStateError out of Future.set_result (only
ActionSkip is swallowed), although the state is left unchanged. -/
theorem skip_action_not_idempotent :
    (skipAction (initAction "a" .NORMAL)).snd = none ∧
    skipAction (skipAction (initAction "a" .NORMAL)).fst =
      ((skipAction (initAction "a" .NORMAL)).fst, some .invalidState) ∧
    (some Exc.invalidState ≠ (none : Option Exc)) := by
  decide

/-- C8 amended: _skip_action on a PENDING action with an unresolved
future forces the SKIPPED transition, fires the completion future and
raises no error; a second application leaves the state unchanged but
raises InvalidStateError instead of passing silently. -/
theorem skip_action_amended (s : ActionState)
    (_hs : s.status = .PENDING) (hf : s.future = .unset) :
    (skipAction s).fst.status = .SKIPPED ∧
    (skipAction s).fst.future.isDone = true ∧
    (skipAction s).snd = none ∧
    skipAction (skipAction s).fst = ((skipAction s).fst, some .invalidState) := by
  simp [skipAction, ActionState.skipCall, internalSkip, hf, FutureVal.isDone]

/-- Witness for C8 at a concrete freshly constructed action. -/
theorem skip_action_amended_witness :
    (initAction "a" .NORMAL).status = .PENDING ∧
    (initAction "a" .NORMAL).future = .unset ∧
    ((skipAction (initAction "a" .NORMAL)).fst.status = .SKIPPED ∧
     (skipAction (initAction "a" .NORMAL)).fst.future.isDone = true ∧
     (skipAction (initAction "a" .NORMAL)).snd = none ∧
     skipAction (skipAction (initAction "a" .NORMAL)).fst =
       ((skipAction (initAction "a" .NORMAL)).fst, some .invalidState)) :=
  ⟨rfl, rfl, skip_action_amended (initAction "a" .NORMAL) rfl rfl⟩

/-- C9: emit on a stderr-flagged message bypasses service-message
scanning entirely -- any stderr message is enqueued verbatim and the
status and outcome map are untouched -- while the same well-formed
##grana[skip]## and ##grana[yield-outcome-b64 ...]## lines emitted as
plain messages trigger the skip transition and the outcome record
respectively (a2V5/dmFs are base64 for key/val). -/
theorem scanner_stderr_bypass :
    (∀ (s : ActionState) (txt : String),
      scannerEmit s (.err txt) =
        ({ s with events := s.events ++ [.err txt] }, none)) ∧
    scannerEmit runningScanner (.out "##grana[skip]##") =
      ({ runningScanner with status := .SKIPPED, future := .result },
        some .actionSkip) ∧
    scannerEmit runningScanner (.err "##grana[skip]##") =
      ({ runningScanner with
          events := [.err "##grana[skip]##"] }, none) ∧
    scannerEmit runningScanner (.out "##grana[yield-outcome-b64 a2V5 dmFs]##") =
      ({ runningScanner with outcomes := [("key", "val")] }, none) ∧
    scannerEmit runningScanner (.err "##grana[yield-outcome-b64 a2V5 dmFs]##") =
      ({ runningScanner with
          events := [.err "##grana[yield-outcome-b64 a2V5 dmFs]##"] }, none) := by
  refine ⟨fun s txt => rfl, by decide, by decide, by decide, by decide⟩

/-- C3 counterexample: the Runner falls a PENDING action directly to
FAILURE when rendering raises (Runner._run_action calling
_internal_fail before the action ever starts), a transition the spec
diagram does not contain. -/
theorem status_diagram_counterexample :
    AStep (initAction "a" .NORMAL)
      (internalFail (.otherError "render error") (initAction "a" .NORMAL)) ∧
    (initAction "a" .NORMAL).status = .PENDING ∧
    (internalFail (.otherError "render error")
      (initAction "a" .NORMAL)).status = .FAILURE ∧
    specDiagramAllows .NORMAL .PENDING .FAILURE = false :=
  ⟨AStep.renderFail _ _ rfl, rfl, by decide, by decide⟩

/-- C3 amended: every status change follows the diagram extended with
the two transitions the code performs beyond the spec drawing --
PENDING to FAILURE/WARNING on a render/validation failure and RUNNING
to SKIPPED on a self-skip -- and terminal statuses are absorbing (no
call path moves a terminal action at all). -/
theorem status_diagram_amended (s s1 : ActionState) (h : AStep s s1) :
    codeDiagramAllows s.severity s.status s1.status = true ∧
    (s.status.isTerminal = true → s1.status = s.status) := by
  cases h with
  | disable hp => exact ⟨by simp [codeDiagramAllows], fun ht => rfl⟩
  | omitted hp he =>
    refine ⟨?_, fun ht => by rw [hp] at ht; cases ht⟩
    by_cases hd : s.future.isDone <;>
      simp [internalOmit, hd, hp, codeDiagramAllows]
  | renderFail e hp =>
    refine ⟨?_, fun ht => by rw [hp] at ht; cases ht⟩
    by_cases hd : s.future.isDone
    · simp [internalFail, hd, codeDiagramAllows]
    · cases hsev : s.severity <;>
        simp [internalFail, hd, hp, hsev, codeDiagramAllows]
  | start hp =>
    exact ⟨by simp [startRun, hp, codeDiagramAllows], fun ht => by
      rw [hp] at ht; cases ht⟩
  | bodyOk hr =>
    refine ⟨?_, fun ht => by rw [hr] at ht; cases ht⟩
    by_cases hd : s.future.isDone <;>
      simp [bodyFinishOk, hd, hr, codeDiagramAllows]
  | bodySkip hr =>
    refine ⟨?_, fun ht => by rw [hr] at ht; cases ht⟩
    by_cases hd : s.future.isDone <;>
      simp [internalSkip, hd, hr, codeDiagramAllows]
  | bodyFail msg hr =>
    refine ⟨?_, fun ht => by rw [hr] at ht; cases ht⟩
    by_cases hd : s.future.isDone
    · simp [internalFail, hd, codeDiagramAllows]
    · cases hsev : s.severity <;>
        simp [internalFail, hd, hr, hsev, codeDiagramAllows]
  | bodyOther txt hr =>
    refine ⟨?_, fun ht => by rw [hr] at ht; cases ht⟩
    by_cases hd : s.future.isDone
    · simp [internalFail, hd, codeDiagramAllows]
    · cases hsev : s.severity <;>
        simp [internalFail, hd, hr, hsev, codeDiagramAllows]
  | outcome k v hr =>
    exact ⟨by simp [yieldOutcome, codeDiagramAllows], fun ht => rfl⟩
  | sayEvent ev hr =>
    exact ⟨by simp [baseEmit, codeDiagramAllows], fun ht => rfl⟩
  | stratSkip hp =>
    refine ⟨?_, fun ht => by rw [hp] at ht; cases ht⟩
    by_cases hd : s.future.isDone <;>
      simp [skipAction, ActionState.skipCall, internalSkip, hd, hp,
        codeDiagramAllows]

/-- Witness for C3 at the concrete start transition of a fresh
action. -/
theorem status_diagram_amended_witness :
    codeDiagramAllows (initAction "w" .NORMAL).severity
      (initAction "w" .NORMAL).status (startRun (initAction "w" .NORMAL)).status
        = true ∧
    ((initAction "w" .NORMAL).status.isTerminal = true →
      (startRun (initAction "w" .NORMAL)).status =
        (initAction "w" .NORMAL).status) :=
  status_diagram_amended (initAction "w" .NORMAL)
    (startRun (initAction "w" .NORMAL)) (AStep.start (initAction "w" .NORMAL) rfl)

/-- A fresh action satisfies the status/future invariant. -/
theorem actionInv_init (n : String) (sev : ActionSeverity) :
    ActionInv (initAction n sev) := by
  refine ⟨by simp [initAction, FutureVal.isDone, ActionStatus.isTerminal], ?_, ?_⟩ <;>
    simp [initAction]

/-- A non-terminal action with a consistent state has an unresolved
future. -/
theorem inv_future_unset (s : ActionState) (hi : ActionInv s)
    (ht : s.status.isTerminal = false) : s.future = .unset := by
  cases hfut : s.future with
  | unset => rfl
  | result =>
    have : s.future.isDone = true := by rw [hfut]; rfl
    rw [hi.1, ht] at this; cases this
  | exception e =>
    have : s.future.isDone = true := by rw [hfut]; rfl
    rw [hi.1, ht] at this; cases this

/-- Every call path preserves the status/future invariant. -/
theorem actionInv_step (s s1 : ActionState) (h : AStep s s1)
    (hi : ActionInv s) : ActionInv s1 := by
  cases h with
  | disable hp => exact hi
  | omitted hp he =>
    have hf := inv_future_unset s hi (by rw [hp]; rfl)
    refine ⟨?_, ?_, ?_⟩ <;> simp [internalOmit, hf, FutureVal.isDone,
      ActionStatus.isTerminal]
  | renderFail e hp =>
    have hf := inv_future_unset s hi (by rw [hp]; rfl)
    cases hsev : s.severity <;>
      refine ⟨?_, ?_, ?_⟩ <;> simp [internalFail, hf, hsev, FutureVal.isDone,
        ActionStatus.isTerminal]
  | start hp =>
    have hf := inv_future_unset s hi (by rw [hp]; rfl)
    refine ⟨?_, ?_, ?_⟩ <;> simp [startRun, hf, FutureVal.isDone,
      ActionStatus.isTerminal]
  | bodyOk hr =>
    have hf := inv_future_unset s hi (by rw [hr]; rfl)
    refine ⟨?_, ?_, ?_⟩ <;> simp [bodyFinishOk, hf, FutureVal.isDone,
      ActionStatus.isTerminal]
  | bodySkip hr =>
    have hf := inv_future_unset s hi (by rw [hr]; rfl)
    refine ⟨?_, ?_, ?_⟩ <;> simp [internalSkip, hf, FutureVal.isDone,
      ActionStatus.isTerminal]
  | bodyFail msg hr =>
    have hf := inv_future_unset s hi (by rw [hr]; rfl)
    cases hsev : s.severity <;>
      refine ⟨?_, ?_, ?_⟩ <;> simp [internalFail, hf, hsev, FutureVal.isDone,
        ActionStatus.isTerminal]
  | bodyOther txt hr =>
    have hf := inv_future_unset s hi (by rw [hr]; rfl)
    cases hsev : s.severity <;>
      refine ⟨?_, ?_, ?_⟩ <;> simp [internalFail, hf, hsev, FutureVal.isDone,
        ActionStatus.isTerminal]
  | outcome k v hr => exact hi
  | sayEvent ev hr => exact hi
  | stratSkip hp =>
    have hf := inv_future_unset s hi (by rw [hp]; rfl)
    refine ⟨?_, ?_, ?_⟩ <;> simp [skipAction, ActionState.skipCall,
      internalSkip, hf, FutureVal.isDone, ActionStatus.isTerminal]

/-- Every reachable action state satisfies the invariant. -/
theorem actionInv_reachable (s : ActionState) (h : AReachable s) :
    ActionInv s := by
  obtain ⟨n, sev, hr⟩ := h
  induction hr with
  | refl => exact actionInv_init n sev
  | tail _ hstep ih => exact actionInv_step _ _ hstep ih

/-- C4 counterexample: an action of low severity whose body fails ends
with terminal status WARNING, yet awaiting it raises the stored run
error instead of succeeding as the claim states. -/
theorem await_warning_counterexample :
    AStep (initAction "w" .LOW) (startRun (initAction "w" .LOW)) ∧
    AStep (startRun (initAction "w" .LOW))
      (internalFail (.actionRunError "boom") (startRun (initAction "w" .LOW))) ∧
    (internalFail (.actionRunError "boom")
      (startRun (initAction "w" .LOW))).status = .WARNING ∧
    futResult (internalFail (.actionRunError "boom")
      (startRun (initAction "w" .LOW))).future =
        some (.error (.actionRunError "boom")) ∧
    some (Except.error (Exc.actionRunError "boom")) ≠
      some (Except.ok ()) :=
  ⟨.start _ rfl, .bodyFail _ "boom" rfl, by decide, by decide, by decide⟩

/-- C4 amended: once the completion future of a reachable action is
resolved, awaiting returns without error exactly when the terminal
status is SUCCESS, SKIPPED or OMITTED, and raises the stored error
exactly when it is FAILURE or WARNING. -/
theorem await_result_amended (s : ActionState) (h : AReachable s)
    (hd : s.future.isDone = true) :
    (futResult s.future = some (.ok ()) ↔
      (s.status = .SUCCESS ∨ s.status = .SKIPPED ∨ s.status = .OMITTED)) ∧
    ((∃ e, futResult s.future = some (.error e)) ↔
      (s.status = .FAILURE ∨ s.status = .WARNING)) := by
  have hi := actionInv_reachable s h
  cases hfut : s.future with
  | unset => rw [hfut] at hd; cases hd
  | result =>
    have hst := hi.2.2 hfut
    constructor
    · simp [futResult, hst]
    · simp only [futResult]
      constructor
      · rintro ⟨e, he⟩; cases he
      · rintro (hb | hb) <;> rcases hst with hc | hc | hc <;>
          rw [hb] at hc <;> cases hc
  | exception e =>
    have hst := hi.2.1 e hfut
    constructor
    · simp only [futResult]
      constructor
      · intro he; cases he
      · rintro (hb | hb | hb) <;> rcases hst with hc | hc <;>
          rw [hb] at hc <;> cases hc
    · simp only [futResult]
      constructor
      · intro _; exact hst
      · intro _; exact ⟨e, rfl⟩

/-- Witness for C4 at a concrete successfully finished action. -/
theorem await_result_amended_witness :
    (futResult (bodyFinishOk (startRun (initAction "x" .NORMAL))).future =
        some (.ok ()) ↔
      ((bodyFinishOk (startRun (initAction "x" .NORMAL))).status = .SUCCESS ∨
       (bodyFinishOk (startRun (initAction "x" .NORMAL))).status = .SKIPPED ∨
       (bodyFinishOk (startRun (initAction "x" .NORMAL))).status = .OMITTED)) ∧
    ((∃ e, futResult (bodyFinishOk (startRun (initAction "x" .NORMAL))).future =
        some (.error e)) ↔
      ((bodyFinishOk (startRun (initAction "x" .NORMAL))).status = .FAILURE ∨
       (bodyFinishOk (startRun (initAction "x" .NORMAL))).status = .WARNING)) :=
  await_result_amended (bodyFinishOk (startRun (initAction "x" .NORMAL)))
    ⟨"x", .NORMAL,
      Relation.ReflTransGen.tail
        (Relation.ReflTransGen.tail (Relation.ReflTransGen.refl)
          (AStep.start (initAction "x" .NORMAL) rfl))
        (AStep.bodyOk (startRun (initAction "x" .NORMAL)) rfl)⟩
    (by decide)

/-- Evaluating one step of the a-to-b context cycle: rendering the
lexemes of the template that references context.a reduces to forcing
the proxy of context.b. -/
theorem renderList_cycle_a (F : String → Except RenderErr String)
    (hF : F "@\x7bcontext.b\x7d" = .error .recursionDepth) :
    renderList ctxCycle F (lexString "@\x7bcontext.a\x7d") =
      .error .recursionDepth := by
  have hlex : lexString "@\x7bcontext.a\x7d" =
      [Lexeme.expr (String.toList "context.a")] := by decide
  have he : evalExpr ctxCycle "context.a" =
      Except.ok (CtxNode.lazy "@\x7bcontext.b\x7d") := by decide
  rw [hlex]
  simp [renderList, he, hF, Bind.bind, Except.bind]

/-- Evaluating one step of the b-to-a context cycle. -/
theorem renderList_cycle_b (F : String → Except RenderErr String)
    (hF : F "@\x7bcontext.a\x7d" = .error .recursionDepth) :
    renderList ctxCycle F (lexString "@\x7bcontext.b\x7d") =
      .error .recursionDepth := by
  have hlex : lexString "@\x7bcontext.b\x7d" =
      [Lexeme.expr (String.toList "context.b")] := by decide
  have he : evalExpr ctxCycle "context.b" =
      Except.ok (CtxNode.lazy "@\x7bcontext.a\x7d") := by decide
  rw [hlex]
  simp [renderList, he, hF, Bind.bind, Except.bind]

/-- Rendering either template of the context cycle at any depth and
with any budget ends in the recursion-depth error. -/
theorem ctxCycle_render_aux (cap : Nat) : ∀ k d : Nat,
    renderTemplate ctxCycle cap k d "@\x7bcontext.a\x7d" =
      .error .recursionDepth ∧
    renderTemplate ctxCycle cap k d "@\x7bcontext.b\x7d" =
      .error .recursionDepth := by
  intro k
  induction k with
  | zero => intro d; exact ⟨rfl, rfl⟩
  | succ k ih =>
    intro d
    by_cases hcd : cap ≤ d + 1
    · constructor <;> simp [renderTemplate, hcd]
    · have hqa : qualifies (String.toList "@\x7bcontext.a\x7d") = true := by decide
      have hqb : qualifies (String.toList "@\x7bcontext.b\x7d") = true := by decide
      constructor
      · simp only [renderTemplate, if_neg hcd, hqa, if_pos]
        exact renderList_cycle_a _ (ih (d + 1)).2
      · simp only [renderTemplate, if_neg hcd, hqb, if_pos]
        exact renderList_cycle_b _ (ih (d + 1)).1

/-- C6 counterexample: with the claim's own example context
(a: "@\x7bb\x7d", b: "@\x7ba\x7d"), rendering a reference to a does
not produce the recursion-depth error: the inner expression b is a
plain name absent from the evaluation locals, so the NameError-based
render error surfaces instead. -/
theorem render_cycle_example_counterexample :
    render ctxClaimExample 32 "@\x7bcontext.a\x7d" =
      .error (.nameError "b") ∧
    RenderErr.nameError "b" ≠ .recursionDepth := by
  decide

/-- C6 amended: when the context values reference each other through
the context container (a: "@\x7bcontext.b\x7d", b: "@\x7bcontext.a\x7d"),
rendering a string that follows the cycle terminates with the
recursion-depth render error for every cap, the call-depth counter
being what stops the recursion. -/
theorem render_cycle_recursion (cap : Nat) :
    render ctxCycle cap "@\x7bcontext.a\x7d" = .error .recursionDepth :=
  (ctxCycle_render_aux cap cap 0).1

/-- A list containing the expression marker qualifies as potentially
renderable. -/
theorem qualifies_marker (xs ys : List Char) :
    qualifies (xs ++ '@' :: '{' :: ys) = true := by
  induction xs with
  | nil => simp [qualifies]
  | cons c xs1 ih =>
    cases xs1 with
    | nil => simp [qualifies]
    | cons b xs2 =>
      have := ih
      simp only [List.cons_append] at this ⊢
      simp [qualifies, this]

/-- String append with the empty string on the right. -/
theorem str_append_empty (s : String) : s ++ "" = s := by
  cases s with
  | mk data =>
    show String.mk (data ++ []) = String.mk data
    rw [List.append_nil]

/-- Lexer step: an @ arms (or disarms) the scanner and moves on. -/
theorem lexGo_at (data rest : List Char) (caret ts : Nat) (armed : Bool) :
    lexGo data ('@' :: rest) caret ts armed =
      lexGo data rest (caret + 1) ts (!armed) := by
  simp [lexGo]

/-- Lexer step: any symbol that neither is an @ nor opens an armed
expression just advances the caret and disarms. -/
theorem lexGo_step (data : List Char) (c : Char) (rest : List Char)
    (caret ts : Nat) (armed : Bool) (hc : c ≠ '@')
    (hno : ¬ (c = '{' ∧ armed = true)) :
    lexGo data (c :: rest) caret ts armed =
      lexGo data rest (caret + 1) ts false := by
  simp only [lexGo]
  rw [if_neg hc, if_neg hno]

/-- Lexer step: an armed opening brace whose expression read runs out
of input makes the handler emit the pre-chunk and the tail from
textStart. -/
theorem lexGo_open_none (data rest : List Char) (caret ts : Nat)
    (he : readExpr rest = none) :
    lexGo data ('{' :: rest) caret ts true =
      (if (pySlice data ts (caret - 1)).isEmpty then []
        else [.text (pySlice data ts (caret - 1))]) ++
        (if (data.drop ts).isEmpty then []
          else [.text (data.drop ts)]) := by
  simp only [lexGo]
  rw [if_neg (by decide), if_pos (by simp), he]

/-- The lexer on a text prefix without @ followed by an unterminated
expression: the scan walks the prefix, arms at the marker, fails to
find the closing brace, and the exception handler emits the slice from
textStart -- which still covers the already-emitted prefix. -/
theorem lexGo_unterminated (data e : List Char) (he : readExpr e = none) :
    ∀ (u pre0 : List Char), '@' ∉ u →
    data = pre0 ++ u ++ '@' :: '{' :: e →
    lexGo data (u ++ '@' :: '{' :: e) pre0.length 0 false =
      (if (pre0 ++ u).isEmpty then [] else [.text (pre0 ++ u)]) ++
        (if data.isEmpty then [] else [.text data]) := by
  intro u
  induction u with
  | nil =>
    intro pre0 _ hdata
    show lexGo data ('@' :: '{' :: e) pre0.length 0 false = _
    rw [lexGo_at]
    show lexGo data ('{' :: e) (pre0.length + 1) 0 true = _
    rw [lexGo_open_none data e (pre0.length + 1) 0 he]
    have hpre : pySlice data 0 (pre0.length + 1 - 1) = pre0 := by
      rw [Nat.add_sub_cancel]
      show (data.take pre0.length).drop 0 = pre0
      rw [List.drop_zero, hdata]
      rw [List.append_nil, List.take_left]
    have htail : data.drop 0 = data := List.drop_zero data
    rw [hpre, htail, List.append_nil]
  | cons c u1 ih =>
    intro pre0 hu hdata
    have hc : c ≠ '@' := by
      intro hcc
      exact hu (by rw [hcc]; exact List.mem_cons_self _ _)
    show lexGo data (c :: (u1 ++ '@' :: '{' :: e)) pre0.length 0 false = _
    rw [lexGo_step data c _ _ _ _ hc (by simp)]
    have hdata1 : data = (pre0 ++ [c]) ++ u1 ++ '@' :: '{' :: e := by
      rw [hdata]; simp
    have hu1 : '@' ∉ u1 := fun hm => hu (List.mem_cons_of_mem _ hm)
    have hres := ih (pre0 ++ [c]) hu1 hdata1
    rw [List.length_append, List.length_singleton] at hres
    rw [hres]
    have hfix : pre0 ++ [c] ++ u1 = pre0 ++ c :: u1 := by simp
    rw [hfix]

/-- C7 counterexample: for the input abc@\x7bfoo, which ends inside an
unterminated expression, render does not return the preceding chunk
with the expression contributing empty (which would give abc): the
preceding chunk is emitted and then the exception handler re-emits the
whole input from the start of that chunk. -/
theorem render_unterminated_counterexample :
    render [] 32 "abc@\x7bfoo" = .ok "abcabc@\x7bfoo" ∧
    (Except.ok "abcabc@\x7bfoo" : Except RenderErr String) ≠ .ok "abc" := by
  decide

/-- C7 amended: for an input t ++ @\x7b ++ e whose text prefix t has no
@ and whose expression tail e has no closing brace, the lexer yields
the preceding chunk t (when non-empty) followed by the entire input
starting at the beginning of that chunk, so render returns t followed
by the whole input -- the preceding chunk is duplicated and the
unterminated expression passes through verbatim instead of
contributing the empty string. -/
theorem render_unterminated_amended (ctx : List (String × CtxNode))
    (cap : Nat) (t e : String) (ht : '@' ∉ t.toList)
    (he : readExpr e.toList = none) (hcap : 2 ≤ cap) :
    lexString (t ++ "@\x7b" ++ e) =
      (if t.toList.isEmpty then [] else [.text t.toList]) ++
        [.text (t ++ "@\x7b" ++ e).toList] ∧
    render ctx cap (t ++ "@\x7b" ++ e) = .ok (t ++ (t ++ "@\x7b" ++ e)) := by
  have hdata : (t ++ "@\x7b" ++ e).toList =
      t.toList ++ '@' :: '{' :: e.toList := by
    show ((t ++ "@\x7b" ++ e).data : List Char) = t.data ++ '@' :: '{' :: e.data
    rw [String.data_append, String.data_append, List.append_assoc]
    rfl
  have hlexg := lexGo_unterminated (t.toList ++ '@' :: '{' :: e.toList)
    e.toList he t.toList [] ht (by simp)
  have hne : (t.toList ++ '@' :: '{' :: e.toList).isEmpty = false := by
    cases tl : t.toList <;> rfl
  have hlex : lexString (t ++ "@\x7b" ++ e) =
      (if t.toList.isEmpty then [] else [.text t.toList]) ++
        [.text (t ++ "@\x7b" ++ e).toList] := by
    show lexGo (t ++ "@\x7b" ++ e).toList (t ++ "@\x7b" ++ e).toList 0 0 false = _
    rw [hdata]
    simp only [List.length_nil, List.nil_append] at hlexg
    rw [hlexg, hne]
    simp
  refine ⟨hlex, ?_⟩
  obtain ⟨k, hk⟩ : ∃ k, cap = k + 2 := by
    obtain ⟨m, hm⟩ := Nat.exists_eq_add_of_le hcap
    exact ⟨m, by omega⟩
  have hq : qualifies (t ++ "@\x7b" ++ e).toList = true := by
    rw [hdata]; exact qualifies_marker _ _
  show renderTemplate ctx cap cap 0 (t ++ "@\x7b" ++ e) = _
  rw [hk]
  show renderTemplate ctx (k + 2) (k + 1 + 1) 0 (t ++ "@\x7b" ++ e) = _
  simp only [renderTemplate]
  rw [if_neg (by omega), hq, if_pos rfl, hlex]
  by_cases hemp : t.toList.isEmpty = true
  · have ht0 : t = "" := by
      cases t with
      | mk d =>
        cases d with
        | nil => rfl
        | cons a b => cases hemp
    rw [if_pos hemp]
    subst ht0
    simp [renderList, Bind.bind, Except.bind, str_append_empty]
    rfl
  · rw [if_neg hemp]
    simp [renderList, Bind.bind, Except.bind, str_append_empty]
    have hdata2 : (t ++ "@\x7b" ++ e).data = t.data ++ '@' :: '{' :: e.data :=
      hdata
    rw [← hdata2]

/-- Witness for C7 at the concrete input abc@\x7bfoo. -/
theorem render_unterminated_amended_witness :
    ('@' ∉ ("abc" : String).toList) ∧ readExpr ("foo" : String).toList = none ∧
    (2 ≤ 32) ∧
    (lexString ("abc" ++ "@\x7b" ++ "foo") =
      (if ("abc" : String).toList.isEmpty then []
        else [.text ("abc" : String).toList]) ++
        [.text (("abc" : String) ++ "@\x7b" ++ "foo").toList] ∧
     render [] 32 (("abc" : String) ++ "@\x7b" ++ "foo") =
       .ok (("abc" : String) ++ (("abc" : String) ++ "@\x7b" ++ "foo"))) :=
  ⟨by decide, by decide, by decide,
    render_unterminated_amended [] 32 "abc" "foo" (by decide) (by decide)
      (by decide)⟩

/-- In an association list with distinct keys, lookup finds exactly
the member entry. -/
theorem alookup_of_mem_nodup {α : Type} (l : List (String × α))
    (hnd : (l.map Prod.fst).Nodup) (n : String) (v : α)
    (hm : (n, v) ∈ l) : alookup l n = some v := by
  induction l with
  | nil => cases hm
  | cons p rest ih =>
    rw [List.map_cons, List.nodup_cons] at hnd
    rcases List.mem_cons.mp hm with heq | htl
    · rw [← heq]
      simp [alookup]
    · have hkey : p.fst ≠ n := by
        intro hk
        exact hnd.1 (hk ▸ List.mem_map.mpr ⟨(n, v), htl, rfl⟩)
      have hres := ih hnd.2 htl
      have hskip : alookup (p :: rest) n = alookup rest n := by
        simp only [alookup]
        rw [List.find?_cons_of_neg _ (by simp [hkey])]
      rw [hskip]
      exact hres

/-- When _get_maybe_next_action selects an action, the selected entry
was in the blockers map and its whole blocker set is done. -/
theorem getMaybeNext_found (done : List String) :
    ∀ (bl : List (String × List String)) (a : String)
      (bl1 : List (String × List String)),
      (getMaybeNextAction done bl).fst = some (a, bl1) →
      ∃ bs, (a, bs) ∈ bl ∧ ∀ x ∈ bs, x ∈ done := by
  intro bl
  induction bl with
  | nil => intro a bl1 h; simp [getMaybeNextAction] at h
  | cons p rest ih =>
    intro a bl1 h
    obtain ⟨n, bs⟩ := p
    simp only [getMaybeNextAction] at h
    by_cases hbe : ((bs.filter (fun x => decide (¬ x ∈ done))).isEmpty = true)
    · rw [if_pos hbe] at h
      have h' : some (n, rest) = some (a, bl1) := h
      injection h' with h1
      injection h1 with ha hbl
      refine ⟨bs, by rw [← ha]; exact List.mem_cons_self _ _, ?_⟩
      intro x hx
      have hnil : bs.filter (fun x => decide (¬ x ∈ done)) = [] :=
        List.isEmpty_iff.mp hbe
      have := List.filter_eq_nil_iff.mp hnil x hx
      simpa using this
    · rw [if_neg hbe] at h
      rcases hrec : getMaybeNextAction done rest with ⟨orec, srec⟩
      rw [hrec] at h
      cases orec with
      | some r =>
        obtain ⟨m, rest1⟩ := r
        have h' : some (m, (n, bs.filter (fun x => decide (¬ x ∈ done))) ::
            rest1) = some (a, bl1) := h
        injection h' with h1
        injection h1 with ha hbl
        obtain ⟨bs1, hmem, hdone⟩ := ih m rest1 (by rw [hrec])
        rw [← ha]
        exact ⟨bs1, List.mem_cons_of_mem _ hmem, hdone⟩
      | none =>
        have h' : (none : Option (String × List (String × List String))) =
            some (a, bl1) := h
        cases h'

/-- Every entry of the blockers map after a _get_maybe_next_action
scan comes from an entry of the original map, either untouched or with
the done names subtracted. This covers both the updated map returned
alongside a found action and the fully subtracted map of a scan that
found nothing. -/
theorem getMaybeNext_entries (done : List String) :
    ∀ (bl : List (String × List String)) (q : String × List String),
      (q ∈ (getMaybeNextAction done bl).snd ∨
        (∃ a bl1, (getMaybeNextAction done bl).fst = some (a, bl1) ∧
          q ∈ bl1)) →
      ∃ bs, (q.fst, bs) ∈ bl ∧
        (q.snd = bs ∨ q.snd = bs.filter (fun x => decide (¬ x ∈ done))) := by
  intro bl
  induction bl with
  | nil =>
    intro q hq
    rcases hq with hq | ⟨a, bl1, hfst, _⟩
    · simp [getMaybeNextAction] at hq
    · simp [getMaybeNextAction] at hfst
  | cons p rest ih =>
    intro q hq
    obtain ⟨n, bs⟩ := p
    simp only [getMaybeNextAction] at hq
    by_cases hbe : ((bs.filter (fun x => decide (¬ x ∈ done))).isEmpty = true)
    · rw [if_pos hbe] at hq
      have hqr : q ∈ rest := by
        rcases hq with hq | ⟨a, bl1, hfst, hql⟩
        · exact hq
        · injection hfst with h1
          injection h1 with _ hbl
          rw [← hbl] at hql
          exact hql
      exact ⟨q.snd, List.mem_cons_of_mem _ hqr, Or.inl rfl⟩
    · rw [if_neg hbe] at hq
      rcases hrec : getMaybeNextAction done rest with ⟨orec, srec⟩
      rw [hrec] at hq
      cases orec with
      | some r =>
        obtain ⟨m, rest1⟩ := r
        have hql : q ∈ (n, bs.filter (fun x => decide (¬ x ∈ done))) :: rest1 := by
          rcases hq with hq | ⟨a, bl1, hfst, hql⟩
          · exact hq
          · injection hfst with h1
            injection h1 with _ hbl
            rw [← hbl] at hql
            exact hql
        rcases List.mem_cons.mp hql with hhead | htail
        · rw [hhead]
          exact ⟨bs, List.mem_cons_self _ _, Or.inr rfl⟩
        · obtain ⟨bs1, hmem, hform⟩ := ih q
            (Or.inr ⟨m, rest1, by rw [hrec], htail⟩)
          exact ⟨bs1, List.mem_cons_of_mem _ hmem, hform⟩
      | none =>
        have hql : q ∈ (n, bs.filter (fun x => decide (¬ x ∈ done))) :: srec := by
          rcases hq with hq | ⟨a, bl1, hfst, _⟩
          · exact hq
          · cases hfst
        rcases List.mem_cons.mp hql with hhead | htail
        · rw [hhead]
          exact ⟨bs, List.mem_cons_self _ _, Or.inr rfl⟩
        · obtain ⟨bs1, hmem, hform⟩ := ih q (Or.inl (by rw [hrec]; exact htail))
          exact ⟨bs1, List.mem_cons_of_mem _ hmem, hform⟩

/-- Writing a terminal status into the status map never removes a name
from the done set. -/
theorem doneNames_mono_aset (statuses : List (String × ActionStatus))
    (n : String) (new : ActionStatus) (hnew : new.isTerminal = true)
    (blockers : List (String × List String)) (active : List String)
    (x : String)
    (hx : x ∈ doneNames ⟨statuses, blockers, active⟩) :
    x ∈ doneNames ⟨aset statuses n new, blockers, active⟩ := by
  simp only [doneNames, List.mem_map] at hx ⊢
  obtain ⟨p, hp, hpx⟩ := hx
  have hp1 := List.mem_filter.mp hp
  by_cases hsome : (statuses.find? (fun q => q.fst = n)).isSome
  · refine ⟨if p.fst = n then (n, new) else p, ?_, ?_⟩
    · apply List.mem_filter.mpr
      constructor
      · simp only [aset, if_pos hsome]
        exact List.mem_map.mpr ⟨p, hp1.1, rfl⟩
      · by_cases hpn : p.fst = n
        · simpa [hpn] using hnew
        · simpa [hpn] using hp1.2
    · by_cases hpn : p.fst = n
      · simp [hpn, ← hpx]
      · rw [← hpx]
        simp [hpn]
  · refine ⟨p, ?_, hpx⟩
    apply List.mem_filter.mpr
    refine ⟨?_, hp1.2⟩
    simp only [aset, if_neg hsome]
    exact List.mem_append.mpr (Or.inl hp1.1)

/-- The blocker-map invariant holds for a freshly built strategy. -/
theorem blockInv_init (wf : StratWorkflow)
    (hnd : (wf.map Prod.fst).Nodup) : BlockInv wf (initSys wf) := by
  intro n bs hmem anc hanc
  left
  simp only [initSys, List.mem_map] at hmem
  obtain ⟨p, hp, hpe⟩ := hmem
  injection hpe with h1 h2
  have hlook : alookup wf n = some p.snd := by
    apply alookup_of_mem_nodup wf hnd
    rw [← h1]
    exact (by simpa using hp)
  rw [ancestorNames, hlook] at hanc
  rw [← h2]
  exact hanc

/-- Every strategy transition preserves the blocker-map invariant. -/
theorem blockInv_step (wf : StratWorkflow) (strict : Bool)
    (st st1 : SysState) (h : SysStep wf strict st st1)
    (hinv : BlockInv wf st) : BlockInv wf st1 := by
  cases h with
  | complete n old new hold holdnt hnew =>
    intro m bs hmem anc hanc
    rcases hinv m bs hmem anc hanc with hb | hd
    · exact Or.inl hb
    · exact Or.inr (doneNames_mono_aset st.statuses n new hnew _ _ anc hd)
  | emit a bl hsel hchk =>
    intro m bs hmem anc hanc
    obtain ⟨bs0, hmem0, hform⟩ := getMaybeNext_entries (doneNames st)
      st.blockers (m, bs) (Or.inr ⟨a, bl, hsel, hmem⟩)
    rcases hinv m bs0 hmem0 anc hanc with hb | hd
    · rcases hform with rfl | rfl
      · exact Or.inl hb
      · by_cases hdone : anc ∈ doneNames st
        · exact Or.inr hdone
        · exact Or.inl (List.mem_filter.mpr ⟨hb, by simpa using hdone⟩)
    · exact Or.inr hd
  | skipEmit a bl hsel hchk =>
    intro m bs hmem anc hanc
    obtain ⟨bs0, hmem0, hform⟩ := getMaybeNext_entries (doneNames st)
      st.blockers (m, bs) (Or.inr ⟨a, bl, hsel, hmem⟩)
    have base : anc ∈ bs ∨ anc ∈ doneNames st := by
      rcases hinv m bs0 hmem0 anc hanc with hb | hd
      · rcases hform with rfl | rfl
        · exact Or.inl hb
        · by_cases hdone : anc ∈ doneNames st
          · exact Or.inr hdone
          · exact Or.inl (List.mem_filter.mpr ⟨hb, by simpa using hdone⟩)
      · exact Or.inr hd
    rcases base with hb | hd
    · exact Or.inl hb
    · exact Or.inr (doneNames_mono_aset st.statuses a .SKIPPED rfl _ _ anc hd)
  | prune n hact hdone =>
    intro m bs hmem anc hanc
    exact hinv m bs hmem anc hanc
  | scanNone hnone =>
    intro m bs hmem anc hanc
    obtain ⟨bs0, hmem0, hform⟩ := getMaybeNext_entries (doneNames st)
      st.blockers (m, bs) (Or.inl hmem)
    rcases hinv m bs0 hmem0 anc hanc with hb | hd
    · rcases hform with rfl | rfl
      · exact Or.inl hb
      · by_cases hdone : anc ∈ doneNames st
        · exact Or.inr hdone
        · exact Or.inl (List.mem_filter.mpr ⟨hb, by simpa using hdone⟩)
    · exact Or.inr hd

/-- The blocker-map invariant holds in every reachable strategy
state. -/
theorem blockInv_reachable (wf : StratWorkflow) (strict : Bool)
    (st : SysState) (hnd : (wf.map Prod.fst).Nodup)
    (hr : SysReachable wf strict st) : BlockInv wf st := by
  induction hr with
  | refl => exact blockInv_init wf hnd
  | tail _ hstep ih => exact blockInv_step wf strict _ _ hstep ih

/-- C1: in any reachable state of the loose or strict strategy over a
workflow with distinct action names, whenever __anext__ selects an
action to emit to the orchestrator (the strict-skip check passing),
every pruned-ancestor of that action is done at that moment. -/
theorem loose_emission_ancestors_done (wf : StratWorkflow) (strict : Bool)
    (st : SysState) (hnd : (wf.map Prod.fst).Nodup)
    (hr : SysReachable wf strict st) (a : String)
    (bl : List (String × List String))
    (hsel : (getMaybeNextAction (doneNames st) st.blockers).fst = some (a, bl))
    (_hchk : strictCheck wf strict st.statuses a = false) :
    ∀ anc ∈ ancestorNames wf a, anc ∈ doneNames st := by
  intro anc hanc
  have hinv := blockInv_reachable wf strict st hnd hr
  obtain ⟨bs, hmem, hdone⟩ := getMaybeNext_found (doneNames st)
    st.blockers a bl hsel
  rcases hinv a bs hmem anc hanc with hb | hd
  · exact hdone anc hb
  · exact hd

/-- Witness for C1: in the two-action chain, after emitting A and
completing it, the strategy selects B and B's only ancestor A is
done. -/
theorem loose_emission_witness : "A" ∈ doneNames st2P := by
  have h1 : SysStep stratPair false (initSys stratPair) st1P := by
    have := @SysStep.emit stratPair false
      (initSys stratPair) "A" [("B", ["A"])] (by decide) (by decide)
    exact this
  have h2 : SysStep stratPair false st1P st2P := by
    have := @SysStep.complete stratPair false
      st1P "A" .PENDING .SUCCESS (by decide) (by decide) (by decide)
    exact this
  exact loose_emission_ancestors_done stratPair false st2P (by decide)
    (Relation.ReflTransGen.tail
      (Relation.ReflTransGen.tail Relation.ReflTransGen.refl h1) h2)
    "B" [] (by decide) (by decide) "A" (by decide)

/-- The surviving-ancestors component of the inner loop equals the
pruning filter: an entry is dropped exactly when its name is absent
from the workflow keys and it is external. -/
theorem processAncestors_fst (keys : List String) (aname : String) :
    ∀ (anc : List (String × ActionDependency))
      (acc : List (String × ActionDependency) × List String ×
        List (String × String)),
      (anc.foldl
        (fun acc p =>
          if ¬ keys.contains p.fst then
            if p.snd.external then acc
            else (acc.1 ++ [p], acc.2.1 ++ [p.fst], acc.2.2)
          else (acc.1 ++ [p], acc.2.1, acc.2.2 ++ [(p.fst, aname)]))
        acc).1 = acc.1 ++ pruneAncestors keys anc := by
  intro anc
  induction anc with
  | nil => intro acc; simp [pruneAncestors]
  | cons p rest ih =>
    intro acc
    rw [List.foldl_cons]
    by_cases hm : p.fst ∈ keys
    · rw [ih]
      have hkeep : pruneAncestors keys (p :: rest) =
          p :: pruneAncestors keys rest := by
        simp [pruneAncestors, List.filter_cons, hm]
      rw [hkeep]
      simp [hm, List.append_assoc]
    · by_cases hext : p.snd.external = true
      · rw [ih]
        have hdrop : pruneAncestors keys (p :: rest) =
            pruneAncestors keys rest := by
          simp [pruneAncestors, List.filter_cons, hm, hext]
        rw [hdrop]
        simp [hm, hext]
      · rw [ih]
        have hkeep : pruneAncestors keys (p :: rest) =
            p :: pruneAncestors keys rest := by
          simp [pruneAncestors, List.filter_cons, hm, hext]
        rw [hkeep]
        simp [hm, hext, List.append_assoc]

/-- The action map produced by the establish loop, relative to an
arbitrary accumulator. -/
theorem establish_actions_general (keys : List String) :
    ∀ (l : List (String × WAction)) (out : EstablishOut),
      (l.foldl (establishStep keys) out).actions =
        out.actions ++ l.map (fun p => (p.fst,
          { p.snd with ancestors := pruneAncestors keys p.snd.ancestors })) := by
  intro l
  induction l with
  | nil => intro out; simp
  | cons p rest ih =>
    intro out
    rw [List.foldl_cons, ih]
    have hstep : (establishStep keys out p).actions =
        out.actions ++ [(p.fst,
          { p.snd with ancestors := pruneAncestors keys p.snd.ancestors })] := by
      simp only [establishStep]
      have := processAncestors_fst keys p.snd.name p.snd.ancestors ([], [], [])
      simp only [processAncestors]
      rw [this]
      simp
    rw [hstep, List.append_assoc]
    simp

/-- C10: constructing a Workflow rewrites each passed-in action only by
removing the ancestors entries whose name is absent from the workflow
and marked external; the name, args, description, selectable, severity,
status, enabled and outcomes fields and every other ancestors entry are
untouched, both in the mutation itself (establish phase, performed even
when an integrity error follows) and in the actions of a successfully
constructed workflow. -/
theorem workflow_construction_frame (wf : List (String × WAction)) :
    (establishDescendants wf).actions =
      wf.map (fun p => (p.fst,
        { p.snd with ancestors := pruneAncestors (wfKeys wf) p.snd.ancestors })) ∧
    ∀ cw : ConstructedWorkflow, construct wf = .ok cw →
      cw.actions = wf.map (fun p => (p.fst,
        { p.snd with ancestors := pruneAncestors (wfKeys wf) p.snd.ancestors })) := by
  have hest : (establishDescendants wf).actions =
      wf.map (fun p => (p.fst,
        { p.snd with ancestors := pruneAncestors (wfKeys wf) p.snd.ancestors })) := by
    show (wf.foldl (establishStep (wfKeys wf)) ⟨[], [], [], []⟩).actions = _
    rw [establish_actions_general (wfKeys wf) wf ⟨[], [], [], []⟩]
    rfl
  refine ⟨hest, ?_⟩
  intro cw hok
  simp only [construct] at hok
  split at hok
  · cases hok
  · split at hok
    · cases hok
    · split at hok
      · cases hok
      · split at hok
        · injection hok with hcw
          rw [← hcw]
          exact hest
        · cases hok

/-- Witness for C10 on the external-dependency fixture: the ghost
entry is pruned, everything else survives construction untouched. -/
theorem workflow_construction_frame_witness :
    construct wfExternal = .ok cwExt ∧
    cwExt.actions = wfExternal.map (fun p => (p.fst,
      { p.snd with
          ancestors := pruneAncestors (wfKeys wfExternal) p.snd.ancestors })) :=
  ⟨by decide,
    (workflow_construction_frame wfExternal).2 cwExt (by decide)⟩

/-- Lookup at a matching head entry. -/
theorem alookup_cons_pos {α : Type} (p : String × α) (l : List (String × α))
    (n : String) (h : p.fst = n) : alookup (p :: l) n = some p.snd := by
  simp only [alookup]
  have hp : ((fun q : String × α => decide (q.fst = n)) p) = true := by
    simp [h]
  rw [List.find?_cons_of_pos l hp]

/-- Lookup skipping a non-matching head entry. -/
theorem alookup_cons_neg {α : Type} (p : String × α) (l : List (String × α))
    (n : String) (h : p.fst ≠ n) : alookup (p :: l) n = alookup l n := by
  simp only [alookup]
  have hp : ¬ ((fun q : String × α => decide (q.fst = n)) p) = true := by
    simp [h]
  rw [List.find?_cons_of_neg l hp]

/-- Lookup distributes over append: a hit in the first part wins. -/
theorem alookup_append_some {α : Type} (l1 l2 : List (String × α))
    (n : String) (v : α) (h : alookup l1 n = some v) :
    alookup (l1 ++ l2) n = some v := by
  induction l1 with
  | nil => simp [alookup] at h
  | cons p rest ih =>
    by_cases hpn : p.fst = n
    · rw [alookup_cons_pos p rest n hpn] at h
      rw [List.cons_append, alookup_cons_pos p (rest ++ l2) n hpn]
      exact h
    · rw [alookup_cons_neg p rest n hpn] at h
      rw [List.cons_append, alookup_cons_neg p (rest ++ l2) n hpn]
      exact ih h

/-- Lookup distributes over append: a miss in the first part falls
through. -/
theorem alookup_append_none {α : Type} (l1 l2 : List (String × α))
    (n : String) (h : alookup l1 n = none) :
    alookup (l1 ++ l2) n = alookup l2 n := by
  induction l1 with
  | nil => simp
  | cons p rest ih =>
    by_cases hpn : p.fst = n
    · rw [alookup_cons_pos p rest n hpn] at h
      cases h
    · rw [alookup_cons_neg p rest n hpn] at h
      rw [List.cons_append, alookup_cons_neg p (rest ++ l2) n hpn]
      exact ih h

/-- Lookup misses exactly outside the key set. -/
theorem alookup_eq_none_iff {α : Type} (l : List (String × α)) (n : String) :
    alookup l n = none ↔ n ∉ l.map Prod.fst := by
  induction l with
  | nil => simp [alookup]
  | cons p rest ih =>
    by_cases hpn : p.fst = n
    · rw [alookup_cons_pos p rest n hpn]
      simp [List.map_cons, ← hpn]
    · rw [alookup_cons_neg p rest n hpn, ih]
      simp only [List.map_cons, List.mem_cons]
      constructor
      · intro hm hor
        rcases hor with heq | hmem
        · exact hpn heq.symm
        · exact hm hmem
      · intro hall hmem
        exact hall (Or.inr hmem)

/-- Lookup in a constant-valued map built from a name list. -/
theorem alookup_map_const (l : List String) (t : Nat) (n : String) :
    alookup (l.map (fun m => (m, t))) n =
      if n ∈ l then some t else none := by
  induction l with
  | nil => simp [alookup]
  | cons a rest ih =>
    by_cases han : a = n
    · rw [List.map_cons, alookup_cons_pos (a, t) _ n han]
      simp [← han]
    · rw [List.map_cons, alookup_cons_neg (a, t) _ n han, ih]
      have hne : ¬ n = a := fun hh => han hh.symm
      simp [List.mem_cons, hne]

/-- One step of layered reachability. -/
theorem mem_reachSet_succ (desc : List (String × List String))
    (entry : List String) (k : Nat) (n : String) :
    n ∈ reachSet desc entry (k + 1) ↔
      ∃ m ∈ reachSet desc entry k, n ∈ descOf desc m := by
  simp [reachSet, List.mem_dedup, List.mem_flatMap]

/-- A name reachable within k steps has a least reach index. -/
theorem exists_hasDist_of_mem_reachSet (desc : List (String × List String))
    (entry : List String) :
    ∀ (k : Nat) (n : String), n ∈ reachSet desc entry k →
      ∃ j, j ≤ k ∧ HasDist desc entry n j := by
  intro k
  induction k using Nat.strong_induction_on with
  | _ k ih =>
    intro n hn
    by_cases hmin : ∀ j < k, n ∉ reachSet desc entry j
    · exact ⟨k, le_refl k, hn, hmin⟩
    · push_neg at hmin
      obtain ⟨j, hj, hjn⟩ := hmin
      obtain ⟨i, hik, hid⟩ := ih j hj n hjn
      exact ⟨i, le_trans hik (le_of_lt hj), hid⟩

/-- The least reach index is unique. -/
theorem hasDist_unique (desc : List (String × List String))
    (entry : List String) (n : String) (j k : Nat)
    (hj : HasDist desc entry n j) (hk : HasDist desc entry n k) : j = k := by
  rcases Nat.lt_trichotomy j k with h | h | h
  · exact absurd hj.1 (hk.2 j h)
  · exact h
  · exact absurd hk.1 (hj.2 k h)

/-- A name at distance k+1 has a predecessor at distance exactly k. -/
theorem hasDist_pred (desc : List (String × List String))
    (entry : List String) (n : String) (k : Nat)
    (h : HasDist desc entry n (k + 1)) :
    ∃ m, HasDist desc entry m k ∧ n ∈ descOf desc m := by
  obtain ⟨m, hm, hmn⟩ := (mem_reachSet_succ desc entry k n).mp h.1
  obtain ⟨j, hjk, hjd⟩ := exists_hasDist_of_mem_reachSet desc entry k m hm
  rcases Nat.lt_or_ge j k with hlt | hge
  · exfalso
    have : n ∈ reachSet desc entry (j + 1) :=
      (mem_reachSet_succ desc entry j n).mpr ⟨m, hjd.1, hmn⟩
    exact h.2 (j + 1) (by omega) this
  · have : j = k := le_antisymm hjk hge
    rw [this] at hjd
    exact ⟨m, hjd, hmn⟩

/-- Once a layer has no name at that exact distance, no later layer
does either. -/
theorem hasDist_none_ge (desc : List (String × List String))
    (entry : List String) (t : Nat)
    (hnone : ∀ m, ¬ HasDist desc entry m t) :
    ∀ k, t ≤ k → ∀ n, ¬ HasDist desc entry n k := by
  intro k
  induction k with
  | zero =>
    intro hk n
    have : t = 0 := Nat.le_zero.mp hk
    rw [← this]
    exact hnone n
  | succ k ih =>
    intro hk n hn
    rcases Nat.lt_or_ge t (k + 1) with hlt | hge
    · obtain ⟨m, hm, _⟩ := hasDist_pred desc entry n k hn
      exact ih (by omega) m hm
    · have : t = k + 1 := by omega
      rw [← this] at hn
      exact hnone n hn

/-- A successful lookup means the key is present. -/
theorem alookup_some_mem_keys {α : Type} (l : List (String × α))
    (n : String) (v : α) (h : alookup l n = some v) :
    n ∈ l.map Prod.fst := by
  by_contra hmem
  rw [(alookup_eq_none_iff l n).mpr hmem] at h
  cases h

/-- A present key has a successful lookup. -/
theorem alookup_exists_of_mem_keys {α : Type} (l : List (String × α))
    (n : String) (h : n ∈ l.map Prod.fst) : ∃ v, alookup l n = some v := by
  cases halo : alookup l n with
  | some v => exact ⟨v, rfl⟩
  | none => exact absurd h ((alookup_eq_none_iff l n).mp halo)

/-- Correctness of the _allocate_tiers BFS loop: starting from a state
whose mapping holds exactly the distances below the current tier and
whose current set contains every name at exactly the current tier (and
only names within it), the final mapping assigns every name its least
reach index. -/
theorem bfsAux_correct (desc : List (String × List String))
    (entry : List String) :
    ∀ (fuel t : Nat) (M : List (String × Nat)) (C : List String)
      (R : List (String × Nat)),
      (∀ n k, alookup M n = some k ↔ (HasDist desc entry n k ∧ k < t)) →
      (∀ n, HasDist desc entry n t → n ∈ C) →
      (∀ n ∈ C, ∃ k, k ≤ t ∧ HasDist desc entry n k) →
      bfsAux desc fuel t M C = some R →
      (∀ n k, alookup R n = some k ↔ HasDist desc entry n k) := by
  intro fuel
  induction fuel with
  | zero =>
    intro t M C R _ _ _ hrun
    cases hrun
  | succ fuel ih =>
    intro t M C R hIA hIB hIC hrun
    set newNames := C.filter (fun n => ¬ (M.map Prod.fst).contains n)
      with hnewdef
    set mapping1 := M ++ newNames.map (fun n => (n, t)) with hmapdef
    set next := (newNames.flatMap (fun n => descOf desc n)).dedup
      with hnextdef
    have hrun1 : (if next.isEmpty then some mapping1
        else bfsAux desc fuel (t + 1) mapping1 next) = some R := hrun
    have hN1 : ∀ n, n ∈ newNames ↔ HasDist desc entry n t := by
      intro n
      rw [hnewdef]
      rw [List.mem_filter]
      constructor
      · intro ⟨hnC, hdec⟩
        have hnot : n ∉ M.map Prod.fst := by
          intro hmemk
          have := of_decide_eq_true hdec
          exact this (List.elem_iff.mpr hmemk)
        obtain ⟨k, hkt, hkd⟩ := hIC n hnC
        rcases Nat.lt_or_ge k t with hlt | hge
        · exfalso
          have hsome : alookup M n = some k := (hIA n k).mpr ⟨hkd, hlt⟩
          exact hnot (alookup_some_mem_keys M n k hsome)
        · have : k = t := le_antisymm hkt hge
          rw [← this]
          exact hkd
      · intro hd
        refine ⟨hIB n hd, ?_⟩
        apply decide_eq_true
        intro hcont
        have hmemk : n ∈ M.map Prod.fst := List.elem_iff.mp hcont
        obtain ⟨v, hv⟩ := alookup_exists_of_mem_keys M n hmemk
        have := (hIA n v).mp hv
        have hvt := hasDist_unique desc entry n v t this.1 hd
        omega
    have hIA1 : ∀ n k, alookup mapping1 n = some k ↔
        (HasDist desc entry n k ∧ k < t + 1) := by
      intro n k
      constructor
      · intro h
        cases hM : alookup M n with
        | some v =>
          rw [hmapdef] at h
          rw [alookup_append_some M _ n v hM] at h
          injection h with hkv
          have hdv := (hIA n v).mp hM
          rw [← hkv]
          exact ⟨hdv.1, by omega⟩
        | none =>
          rw [hmapdef] at h
          rw [alookup_append_none M _ n hM, alookup_map_const] at h
          by_cases hmem : n ∈ newNames
          · rw [if_pos hmem] at h
            injection h with hkv
            rw [← hkv]
            exact ⟨(hN1 n).mp hmem, by omega⟩
          · rw [if_neg hmem] at h
            cases h
      · intro ⟨hd, hlt⟩
        rcases Nat.lt_or_ge k t with hlt' | hge
        · have := (hIA n k).mpr ⟨hd, hlt'⟩
          rw [hmapdef]
          exact alookup_append_some M _ n k this
        · have hkt : k = t := by omega
          subst hkt
          have hnone : alookup M n = none := by
            cases halo : alookup M n with
            | none => rfl
            | some v =>
              have := (hIA n v).mp halo
              have := hasDist_unique desc entry n v k this.1 hd
              omega
          rw [hmapdef, alookup_append_none M _ n hnone, alookup_map_const,
            if_pos ((hN1 n).mpr hd)]
    by_cases hend : next.isEmpty = true
    · rw [if_pos hend] at hrun1
      injection hrun1 with hR
      have hnil : next = [] := List.isEmpty_iff.mp hend
      have hnodist : ∀ m, ¬ HasDist desc entry m (t + 1) := by
        intro m hm
        obtain ⟨p, hp, hmp⟩ := hasDist_pred desc entry m t hm
        have hpN : p ∈ newNames := (hN1 p).mpr hp
        have : m ∈ next := by
          rw [hnextdef]
          rw [List.mem_dedup, List.mem_flatMap]
          exact ⟨p, hpN, hmp⟩
        rw [hnil] at this
        cases this
      intro n k
      rw [← hR]
      rw [hIA1 n k]
      constructor
      · intro h
        exact h.1
      · intro hd
        refine ⟨hd, ?_⟩
        by_contra hk
        exact hasDist_none_ge desc entry (t + 1) hnodist k (by omega) n hd
    · rw [if_neg hend] at hrun1
      apply ih (t + 1) mapping1 next R hIA1 ?_ ?_ hrun1
      · intro n hd
        obtain ⟨p, hp, hmp⟩ := hasDist_pred desc entry n t hd
        have hpN : p ∈ newNames := (hN1 p).mpr hp
        rw [hnextdef]
        rw [List.mem_dedup, List.mem_flatMap]
        exact ⟨p, hpN, hmp⟩
      · intro n hn
        rw [hnextdef] at hn
        rw [List.mem_dedup, List.mem_flatMap] at hn
        obtain ⟨p, hpN, hnp⟩ := hn
        have hp : HasDist desc entry p t := (hN1 p).mp hpN
        have : n ∈ reachSet desc entry (t + 1) :=
          (mem_reachSet_succ desc entry t n).mpr ⟨p, hp.1, hnp⟩
        obtain ⟨j, hjt, hjd⟩ :=
          exists_hasDist_of_mem_reachSet desc entry (t + 1) n this
        exact ⟨j, hjt, hjd⟩

/-- Layered reachability coincides with the existence of an
entrypoint path of that exact length. -/
theorem mem_reachSet_iff_edgePath (desc : List (String × List String))
    (entry : List String) :
    ∀ (k : Nat) (n : String),
      n ∈ reachSet desc entry k ↔ ∃ e ∈ entry, EdgePath desc e n k := by
  intro k
  induction k with
  | zero =>
    intro n
    constructor
    · intro h
      exact ⟨n, h, .refl n⟩
    · rintro ⟨e, he, hp⟩
      cases hp
      exact he
  | succ k ih =>
    intro n
    rw [mem_reachSet_succ]
    constructor
    · rintro ⟨m, hm, hnm⟩
      obtain ⟨e, he, hp⟩ := (ih m).mp hm
      exact ⟨e, he, .snoc e m n k hp hnm⟩
    · rintro ⟨e, he, hp⟩
      cases hp with
      | snoc b2 c2 k2 hp1 hedge =>
        exact ⟨b2, (ih b2).mpr ⟨e, he, hp1⟩, hedge⟩

/-- C5: in a successfully constructed workflow, the tier index
recorded for an action equals the length of the shortest path from
some entrypoint to it along descendant edges (and nothing is recorded
for any other length); entrypoints get tier 0 as the k = 0 case. -/
theorem tier_is_shortest_path (wf : List (String × WAction))
    (cw : ConstructedWorkflow) (hok : construct wf = .ok cw)
    (n : String) (k : Nat) :
    alookup cw.tiers n = some k ↔
      ((∃ e ∈ cw.entry, EdgePath cw.desc e n k) ∧
        ∀ j < k, ¬ ∃ e ∈ cw.entry, EdgePath cw.desc e n j) := by
  simp only [construct] at hok
  split at hok
  · cases hok
  split at hok
  · cases hok
  split at hok
  · cases hok
  rename_i mapping heq
  split at hok
  · injection hok with hcw
    subst hcw
    have hmain := bfsAux_correct (establishDescendants wf).desc
      (establishDescendants wf).entry
      ((bfsUniverse (establishDescendants wf).entry
        (establishDescendants wf).desc).length + 1) 0 []
      (establishDescendants wf).entry mapping
      (by
        intro m j
        constructor
        · intro h
          simp [alookup] at h
        · rintro ⟨_, hj⟩
          omega)
      (by
        intro m hd
        exact hd.1)
      (by
        intro m hm
        exact ⟨0, le_refl 0, hm, fun j hj => absurd hj (by omega)⟩)
      heq n k
    show alookup mapping n = some k ↔ _
    rw [hmain]
    constructor
    · intro ⟨h1, h2⟩
      refine ⟨(mem_reachSet_iff_edgePath _ _ k n).mp h1, ?_⟩
      intro j hj hex
      exact h2 j hj ((mem_reachSet_iff_edgePath _ _ j n).mpr hex)
    · intro ⟨h1, h2⟩
      refine ⟨(mem_reachSet_iff_edgePath _ _ k n).mpr h1, ?_⟩
      intro j hj hmem
      exact h2 j hj ((mem_reachSet_iff_edgePath _ _ j n).mp hmem)
  · cases hok

/-- Witness for C5 on the two-action chain: B sits at tier 1, the
length of its only entrypoint path. -/
theorem tier_is_shortest_path_witness :
    construct wfPair = .ok cwPair ∧
    (alookup cwPair.tiers "B" = some 1 ↔
      ((∃ e ∈ cwPair.entry, EdgePath cwPair.desc e "B" 1) ∧
        ∀ j < 1, ¬ ∃ e ∈ cwPair.entry, EdgePath cwPair.desc e "B" j)) :=
  ⟨by decide, tier_is_shortest_path wfPair cwPair (by decide) "B" 1⟩

/-- A successful lookup recovers a member pair. -/
theorem alookup_mem_pair {α : Type} (l : List (String × α)) (n : String)
    (v : α) (h : alookup l n = some v) : (n, v) ∈ l := by
  simp only [alookup] at h
  cases hf : l.find? (fun p => p.fst = n) with
  | none => rw [hf] at h; cases h
  | some pr =>
    rw [hf] at h
    injection h with hv
    have hmem := List.mem_of_find?_eq_some hf
    have hpred := List.find?_some hf
    have hfst : pr.fst = n := of_decide_eq_true hpred
    have : pr = (n, v) := by
      cases pr
      simp only at hfst hv
      rw [hfst, hv]
    rw [← this]
    exact hmem

/-- Filtering with a strictly weaker predicate over a list containing
a separating element gives a strictly shorter result. -/
theorem filter_length_lt {p q : String → Bool}
    (himp : ∀ x, q x = true → p x = true) :
    ∀ (U : List String) (x0 : String), x0 ∈ U → p x0 = true →
      q x0 = false → (U.filter q).length < (U.filter p).length := by
  intro U
  induction U with
  | nil => intro x0 h; cases h
  | cons a rest ih =>
    intro x0 hx0 hp hq
    have hmono := List.Sublist.length_le
      (List.monotone_filter_right rest (fun x hx => himp x hx))
    rcases List.mem_cons.mp hx0 with rfl | hmem
    · have hqa : q x0 = false := hq
      simp only [List.filter_cons, hp, hqa]
      simp only [Bool.false_eq_true, if_false, if_true, List.length_cons]
      omega
    · by_cases hqa : q a = true
      · have hpa := himp a hqa
        simp only [List.filter_cons, hpa, hqa, if_true, List.length_cons]
        have := ih x0 hmem hp hq
        omega
      · have hqa' : q a = false := by
          cases hh : q a
          · rfl
          · exact absurd hh hqa
        by_cases hpa : p a = true
        · simp only [List.filter_cons, hpa, hqa', if_true,
            Bool.false_eq_true, if_false, List.length_cons]
          have := ih x0 hmem hp hq
          omega
        · have hpa' : p a = false := by
            cases hh : p a
            · rfl
            · exact absurd hh hpa
          simp only [List.filter_cons, hpa', hqa', Bool.false_eq_true,
            if_false]
          exact ih x0 hmem hp hq

/-- The BFS loop terminates within any fuel exceeding the number of
unassigned universe names: each pass either stops or assigns at least
one fresh name, matching the argument that the source's while loop
ends. -/
theorem bfsAux_total (desc : List (String × List String)) (U : List String)
    (hdesc : ∀ pr ∈ desc, ∀ m ∈ pr.snd, m ∈ U) :
    ∀ (fuel t : Nat) (M : List (String × Nat)) (C : List String),
      (∀ n ∈ C, n ∈ U) →
      (U.filter (fun n => ¬ (M.map Prod.fst).contains n)).length < fuel →
      (bfsAux desc fuel t M C).isSome = true := by
  intro fuel
  induction fuel with
  | zero =>
    intro t M C _ hlt
    omega
  | succ fuel ih =>
    intro t M C hC hlt
    set newNames := C.filter (fun n => ¬ (M.map Prod.fst).contains n)
      with hnewdef
    set mapping1 := M ++ newNames.map (fun n => (n, t)) with hmapdef
    set next := (newNames.flatMap (fun n => descOf desc n)).dedup
      with hnextdef
    have hstep : bfsAux desc (fuel + 1) t M C =
        (if next.isEmpty then some mapping1
          else bfsAux desc fuel (t + 1) mapping1 next) := rfl
    rw [hstep]
    by_cases hend : next.isEmpty = true
    · rw [if_pos hend]
      rfl
    · rw [if_neg hend]
      have hnn : newNames ≠ [] := by
        intro h0
        apply hend
        rw [hnextdef, h0]
        rfl
      obtain ⟨x0, hx0⟩ := List.exists_mem_of_ne_nil newNames hnn
      have hx0f : x0 ∈ C.filter (fun n => ¬ (M.map Prod.fst).contains n) := by
        rw [← hnewdef]
        exact hx0
      have hx0C : x0 ∈ C := (List.mem_filter.mp hx0f).1
      have hx0p : (decide (¬ (M.map Prod.fst).contains x0 = true)) = true :=
        (List.mem_filter.mp hx0f).2
      have hx0q : (decide (¬ (mapping1.map Prod.fst).contains x0 = true))
          = false := by
        apply decide_eq_false
        intro hno
        apply hno
        apply List.elem_iff.mpr
        rw [hmapdef, List.map_append]
        apply List.mem_append.mpr
        right
        rw [List.map_map]
        exact List.mem_map.mpr ⟨x0, hx0, rfl⟩
      apply ih (t + 1) mapping1 next
      · intro n hn
        rw [hnextdef] at hn
        rw [List.mem_dedup, List.mem_flatMap] at hn
        obtain ⟨m, _, hnm⟩ := hn
        cases halo : alookup desc m with
        | none => rw [descOf, halo] at hnm; cases hnm
        | some bucket =>
          rw [descOf, halo] at hnm
          exact hdesc (m, bucket) (alookup_mem_pair desc m bucket halo) n hnm
      · have himp : ∀ x,
            (decide (¬ (mapping1.map Prod.fst).contains x = true)) = true →
            (decide (¬ (M.map Prod.fst).contains x = true)) = true := by
          intro x hx
          apply decide_eq_true
          intro hcont
          have := of_decide_eq_true hx
          apply this
          apply List.elem_iff.mpr
          rw [hmapdef, List.map_append]
          exact List.mem_append.mpr (Or.inl (List.elem_iff.mp hcont))
        have hdec := filter_length_lt himp U x0 (hC x0 hx0C) hx0p hx0q
        have hle : (U.filter
            (fun n => ¬ (M.map Prod.fst).contains n)).length < fuel + 1 := hlt
        omega

/-- The fuel construct hands the BFS is always sufficient: the
fuel-exhausted branch of the embedding is dead code. -/
theorem construct_fuel_sufficient (wf : List (String × WAction)) :
    construct wf ≠ .error "bfs fuel exhausted" := by
  intro h
  simp only [construct] at h
  split at h
  · simp at h
  split at h
  · simp at h
  rename_i hmiss hentry
  have htotal := bfsAux_total (establishDescendants wf).desc
    (bfsUniverse (establishDescendants wf).entry (establishDescendants wf).desc)
    (by
      intro pr hpr m hm
      apply List.mem_append.mpr
      right
      exact List.mem_flatMap.mpr ⟨pr, hpr, hm⟩)
    ((bfsUniverse (establishDescendants wf).entry
      (establishDescendants wf).desc).length + 1) 0 []
    (establishDescendants wf).entry
    (by
      intro n hn
      exact List.mem_append.mpr (Or.inl hn))
    (by
      have := List.length_filter_le
        (fun n => ¬ ((([] : List (String × Nat)).map Prod.fst).contains n))
        (bfsUniverse (establishDescendants wf).entry
          (establishDescendants wf).desc)
      omega)
  split at h
  · rename_i heq
    rw [heq] at htotal
    cases htotal
  · split at h
    · cases h
    · simp at h

end Grana
